import Mathlib

/-!
Verification of the gitforge specification against a shallow embedding of the
source (src/gitforge).  Each Python function used by a claim is translated
into an executable Lean definition; theorems about those definitions settle
the claims.

Conventions used throughout:
* `Oid` is a `String` (the source uses 40-char hex strings; no property below
  depends on their length).
* SHA-1 and zlib are external libraries, not code of this repository; they are
  passed in as parameters (`sha`, `compress`/`decompress`) exactly where the
  source calls them.  zlib's round-trip (`decompress (compress x) = x`) is a
  hypothesis where a claim needs it.
* the filesystem is modelled by association lists with string keys; `alook`,
  `aset`, `adel` model read, overwrite-or-create, and delete of a file.
-/

namespace Gitforge

abbrev Oid := String

/-- Association-list lookup: the first binding wins (a filesystem has one file
per path, so keys are unique in every state the program produces). -/
def alook {α : Type} : List (String × α) → String → Option α
  | [], _ => none
  | (k, v) :: rest, key => if key = k then some v else alook rest key

/-- Association-list write: overwrite the binding if the key is present
(a file overwrite), otherwise append a new binding (file creation). -/
def aset {α : Type} : List (String × α) → String → α → List (String × α)
  | [], k, v => [(k, v)]
  | (k', v') :: rest, k, v =>
      if k = k' then (k, v) :: rest else (k', v') :: aset rest k v

/-- Association-list delete (removes the binding of the key, `os.remove`). -/
def adel {α : Type} : List (String × α) → String → List (String × α)
  | [], _ => []
  | (k', v') :: rest, k => if k = k' then rest else (k', v') :: adel rest k

theorem alook_aset {α : Type} (l : List (String × α)) (k : String) (v : α)
    (k' : String) :
    alook (aset l k v) k' = if k' = k then some v else alook l k' := by
  induction l with
  | nil => by_cases h : k' = k <;> simp [aset, alook, h]
  | cons hd tl ih =>
      obtain ⟨k0, v0⟩ := hd
      by_cases h1 : k = k0
      · subst h1
        by_cases h2 : k' = k <;> simp [aset, alook, h2]
      · by_cases h2 : k' = k0
        · subst h2
          simp [aset, alook, h1, Ne.symm h1, ih]
        · simp [aset, alook, h1, h2, ih]

theorem alook_aset_self {α : Type} (l : List (String × α)) (k : String)
    (v : α) : alook (aset l k v) k = some v := by
  simp [alook_aset]

theorem alook_aset_ne {α : Type} (l : List (String × α)) (k : String) (v : α)
    (k' : String) (h : k' ≠ k) : alook (aset l k v) k' = alook l k' := by
  simp [alook_aset, h]

theorem aset_self_of_alook {α : Type} (l : List (String × α)) (k : String)
    (v : α) (h : alook l k = some v) : aset l k v = l := by
  induction l with
  | nil => simp [alook] at h
  | cons hd tl ih =>
      obtain ⟨k0, v0⟩ := hd
      by_cases h1 : k = k0
      · subst h1
        simp [alook] at h
        simp [aset, h]
      · simp [alook, h1] at h
        simp [aset, h1, ih h]

/-! ### Object store (src/gitforge/objects.py, hash_object / get_object)

Object files live at `objects/<oid[:2]>/<oid[2:]>`; since oids have a fixed
length the path determines the oid and vice versa, so the store is keyed by
oid directly.  File contents are `zlib.compress(type ++ b"\x00" ++ data)`;
bytes are `List Nat`. -/

/-- `str.encode()` for the ASCII strings the program encodes (type tags). -/
def strBytes (s : String) : List Nat := s.toList.map Char.toNat

/-- `bytes.decode()` for the ASCII byte strings the program decodes. -/
def bytesStr (l : List Nat) : String := String.mk (l.map Char.ofNat)

abbrev Store := List (Oid × List Nat)

/-- `hash_object(data, type_)` (objects.py:109-115).  `sha` models
`hashlib.sha1(...).hexdigest()` and `compress` models `zlib.compress`; both
are external libraries.  Returns the oid, the updated store and the list of
object files written: the source opens the object file for writing
unconditionally, so the write log is always `[oid]`. -/
def hash_object (sha : List Nat → Oid) (compress : List Nat → List Nat)
    (store : Store) (data : List Nat) (type_ : String) :
    Oid × Store × List Oid :=
  let obj := strBytes type_ ++ [0] ++ data
  let oid := sha obj
  (oid, aset store oid (compress obj), [oid])

/-- `bytes.partition(b"\x00")` restricted to the two components the source
uses: the part before the first NUL and the part after it (the whole string
and the empty string when there is no NUL, as in Python). -/
def partNul : List Nat → List Nat × List Nat
  | [] => ([], [])
  | b :: rest =>
      if b = 0 then ([], rest)
      else ((partNul rest).1.cons b, (partNul rest).2)

inductive GetObjErr where
  | missing
  | wrongType
  deriving DecidableEq

/-- `get_object(oid, expected)` (objects.py:118-127).  `decompress` models
`zlib.decompress`.  The stored bytes are split at the first NUL; the part
before it is the type tag, the part after it is the payload. -/
def get_object (decompress : List Nat → List Nat) (store : Store) (oid : Oid)
    (expected : Option String) : Except GetObjErr (List Nat) :=
  match alook store oid with
  | none => .error .missing
  | some raw =>
      let obj := decompress raw
      let type_ := bytesStr (partNul obj).1
      let content := (partNul obj).2
      match expected with
      | some e => if type_ = e then .ok content else .error .wrongType
      | none => .ok content

theorem partNul_append (l r : List Nat) (h : ∀ b ∈ l, b ≠ 0) :
    partNul (l ++ 0 :: r) = (l, r) := by
  induction l with
  | nil => simp [partNul]
  | cons b tl ih =>
      have hb : b ≠ 0 := h b (by simp)
      have ih' := ih (fun x hx => h x (by simp [hx]))
      simp [partNul, hb, ih']

/-- C1, main theorem.  For every byte string `data` and type tag in
{blob, tree, commit}, for any hash function and any zlib pair that round
trips: after `hash_object(data, type_)` returns `oid`, `get_object(oid,
type_)` returns exactly `data` and the recorded type passes the type
assertion (the header is split at the first NUL, so payload bytes — NULs
included — round trip). -/
theorem get_object_hash_object (sha : List Nat → Oid)
    (compress decompress : List Nat → List Nat)
    (hzlib : ∀ x, decompress (compress x) = x)
    (store : Store) (data : List Nat) (type_ : String)
    (hty : type_ = "blob" ∨ type_ = "tree" ∨ type_ = "commit") :
    get_object decompress (hash_object sha compress store data type_).2.1
      (hash_object sha compress store data type_).1 (some type_) =
      .ok data := by
  have htag : (∀ b ∈ strBytes type_, b ≠ 0) ∧ bytesStr (strBytes type_) = type_ := by
    rcases hty with h | h | h <;> subst h <;> constructor <;> decide
  simp only [hash_object, get_object, alook_aset_self, hzlib,
    List.append_assoc, List.singleton_append]
  rw [partNul_append _ _ htag.1]
  simp [htag.2]

/-- C1, witness: the round trip evaluated on the concrete payload
`[0, 255, 104]` (which contains a NUL byte) with type `blob`. -/
theorem get_object_hash_object_witness :
    get_object id
        (hash_object (fun _ => "da39a3ee") id [] [0, 255, 104] "blob").2.1
        (hash_object (fun _ => "da39a3ee") id [] [0, 255, 104] "blob").1
        (some "blob") = .ok [0, 255, 104] :=
  get_object_hash_object (fun _ => "da39a3ee") id id (fun _ => rfl)
    [] [0, 255, 104] "blob" (Or.inl rfl)

/-! C7: the spec says re-hashing an existing object performs no write to the
existing object file.  The source (objects.py:113-114) opens the object file
with mode `wb` and writes it unconditionally — there is no existence check —
so a write is always performed.  The oid and the stored bytes are unchanged,
but the file is rewritten. -/

/-- A store that already holds the object that `exSha` will produce. -/
def exSha : List Nat → Oid := fun _ => "aabb"

def exObj : List Nat := strBytes "blob" ++ [0] ++ [1, 2]

def exStore : Store := [("aabb", exObj)]

/-- C7, counterexample.  In a store where the object file for the resulting
oid already exists, `hash_object` still performs a write to that file (its
write log is `[oid]`, not empty), contradicting the claim that no write is
performed.  (The write log does not depend on the hash function, so the
stand-in hash loses no generality.) -/
theorem hash_object_rewrites_existing :
    alook exStore (hash_object exSha id exStore [1, 2] "blob").1 ≠ none ∧
    (hash_object exSha id exStore [1, 2] "blob").2.2 = ["aabb"] ∧
    (hash_object exSha id exStore [1, 2] "blob").2.2 ≠ [] := by
  refine ⟨?_, rfl, by decide⟩
  decide

/-- C7, amended claim: re-hashing an existing object returns the same oid and
leaves the store contents unchanged (the object file is rewritten, but with
byte-identical content); the claim's "no write is performed" part is false. -/
theorem hash_object_rehash_store_unchanged (sha : List Nat → Oid)
    (compress : List Nat → List Nat) (store : Store) (data : List Nat)
    (type_ : String)
    (hexists : alook store (sha (strBytes type_ ++ [0] ++ data)) =
      some (compress (strBytes type_ ++ [0] ++ data))) :
    (hash_object sha compress store data type_).1 =
      sha (strBytes type_ ++ [0] ++ data) ∧
    (hash_object sha compress store data type_).2.1 = store := by
  exact ⟨rfl, aset_self_of_alook _ _ _ hexists⟩

/-- C7, witness for the amended claim, at the concrete store `exStore`. -/
theorem hash_object_rehash_store_unchanged_witness :
    (hash_object exSha id exStore [1, 2] "blob").1 = "aabb" ∧
    (hash_object exSha id exStore [1, 2] "blob").2.1 = exStore := by
  have h := hash_object_rehash_store_unchanged exSha id exStore [1, 2] "blob"
    (by decide)
  exact h

/-! ### Three-way tree merge (src/gitforge/diff_engine.py, merge_trees)

Flat trees are association lists `path ↦ oid`.  `merge_blobs` shells out to
the external `diff3 -m` tool (spec §4.3 treats it as a pure service); it is
passed in as the parameter `mb`, returning the merged bytes and the
has-conflict flag (`diff3`'s exit status 1).  `hashB` stands for
`objects.hash_object` on the merged bytes (blob content, modelled as a
string of bytes). -/

abbrev Path := String

/-- An index entry: `{"state": "clear", "oid": o}` or `{"state": "conflict",
"type": ctype, "oid": merged, "base": b, "head": h, "other": o}`.  The source
always stores a (non-None) merged oid in conflict entries it creates
(diff_engine.py:119-129); the `oid is None` check in `write_tree` is dead for
states this program produces. -/
inductive IEntry where
  | clear (oid : Oid)
  | conflict (ctype : String) (oid : Oid) (base head other : Option Oid)
  deriving DecidableEq

/-- One row of `merge_trees`'s per-path decision chain
(diff_engine.py:67-135), in the source's branch order.  Returns `none` for
"drop the path", otherwise the entry together with whether the path is
appended to the conflicts list. -/
def mergeRow (mb : Option Oid → Option Oid → Option Oid → String × Bool)
    (hashB : String → Oid) (b h o : Option Oid) : Option (IEntry × Bool) :=
  -- both deleted
  if h = none ∧ o = none then none
  -- only one side added (no conflict)
  else if b = none ∧ ¬((h = none) ↔ (o = none)) then
    some (.clear ((h.or o).getD ""), false)
  -- delete accepted (no conflict)
  else if b ≠ none ∧ h = none ∧ o = b then none
  else if b ≠ none ∧ o = none ∧ h = b then none
  else
    -- only one side modified / same change / identical add (no conflict)
    let clearRes : Option IEntry :=
      if b ≠ none ∧ h ≠ none ∧ o ≠ none then
        if h = b ∧ o ≠ b then some (.clear (o.getD ""))
        else if o = b ∧ h ≠ b then some (.clear (h.getD ""))
        else if h = o then some (.clear (h.getD ""))
        else none
      else if b = none ∧ h ≠ none ∧ o ≠ none ∧ h = o then
        some (.clear (h.getD ""))
      else none
    match clearRes with
    | some e => some (e, false)
    | none =>
        -- determine conflict type, then unified diff3 merge
        let ctype :=
          if b = none ∧ h ≠ none ∧ o ≠ none then "add_add"
          else if b ≠ none ∧ h = none ∧ o ≠ none then
            "current_delete_target_modify"
          else if b ≠ none ∧ h ≠ none ∧ o = none then
            "current_modify_target_delete"
          else "content_conflict"
        let merged := mb b h o
        let mergedOid := hashB merged.1
        if merged.2 then some (.conflict ctype mergedOid b h o, true)
        else some (.clear mergedOid, false)

/-- Key iteration order of `compare_trees`: Python's `defaultdict` preserves
first-occurrence insertion order over `t_base`, then `t_HEAD`, then
`t_other`. -/
def dedupKeys : List Path → List Path → List Path
  | [], _ => []
  | p :: rest, seen =>
      if p ∈ seen then dedupKeys rest seen else p :: dedupKeys rest (p :: seen)

def mtGo (mb : Option Oid → Option Oid → Option Oid → String × Bool)
    (hashB : String → Oid) (tBase tHead tOther : List (Path × Oid)) :
    List Path → List (Path × IEntry) × List Path
  | [] => ([], [])
  | p :: rest =>
      let res := mtGo mb hashB tBase tHead tOther rest
      match mergeRow mb hashB (alook tBase p) (alook tHead p) (alook tOther p) with
      | none => res
      | some (e, isConf) =>
          ((p, e) :: res.1, if isConf then p :: res.2 else res.2)

/-- `merge_trees(t_base, t_HEAD, t_other)` (diff_engine.py:51-137): the merged
index and the list of conflicted paths, in iteration order. -/
def merge_trees (mb : Option Oid → Option Oid → Option Oid → String × Bool)
    (hashB : String → Oid) (tBase tHead tOther : List (Path × Oid)) :
    List (Path × IEntry) × List Path :=
  let paths := dedupKeys
    (tBase.map Prod.fst ++ tHead.map Prod.fst ++ tOther.map Prod.fst) []
  mtGo mb hashB tBase tHead tOther paths

theorem mem_dedupKeys (l : List Path) (seen : List Path) (p : Path) :
    p ∈ dedupKeys l seen ↔ p ∈ l ∧ p ∉ seen := by
  induction l generalizing seen with
  | nil => simp [dedupKeys]
  | cons q rest ih =>
      by_cases hq : q ∈ seen
      · simp only [dedupKeys, if_pos hq, ih]
        constructor
        · rintro ⟨hmem, hns⟩; exact ⟨.tail _ hmem, hns⟩
        · rintro ⟨hmem, hns⟩
          cases List.mem_cons.mp hmem with
          | inl h => exact absurd (h ▸ hq) hns
          | inr h => exact ⟨h, hns⟩
      · simp only [dedupKeys, if_neg hq, List.mem_cons, ih]
        constructor
        · rintro (rfl | ⟨hmem, hns⟩)
          · exact ⟨Or.inl rfl, hq⟩
          · simp only [List.mem_cons, not_or] at hns
            exact ⟨Or.inr hmem, hns.2⟩
        · rintro ⟨rfl | hmem, hns⟩
          · exact Or.inl rfl
          · by_cases hpq : p = q
            · exact Or.inl hpq
            · exact Or.inr ⟨hmem, by simp [hpq, hns]⟩

theorem nodup_dedupKeys (l : List Path) (seen : List Path) :
    (dedupKeys l seen).Nodup := by
  induction l generalizing seen with
  | nil => simp [dedupKeys]
  | cons q rest ih =>
      by_cases hq : q ∈ seen
      · simpa [dedupKeys, hq] using ih seen
      · simp only [dedupKeys, if_neg hq, List.nodup_cons]
        refine ⟨fun hmem => ?_, ih (q :: seen)⟩
        exact ((mem_dedupKeys _ _ _).mp hmem).2 (by simp)

theorem alook_mtGo_of_not_mem
    (mb : Option Oid → Option Oid → Option Oid → String × Bool)
    (hashB : String → Oid) (tB tH tO : List (Path × Oid)) (ps : List Path)
    (p : Path) (hmem : p ∉ ps) :
    alook (mtGo mb hashB tB tH tO ps).1 p = none := by
  induction ps with
  | nil => simp [mtGo, alook]
  | cons q rest ih =>
      have hpq : p ≠ q := fun he => hmem (he ▸ List.mem_cons_self q rest)
      have hpr : p ∉ rest := fun he => hmem (List.mem_cons_of_mem _ he)
      rcases hrow : mergeRow mb hashB (alook tB q) (alook tH q) (alook tO q)
        with _ | ⟨e, isC⟩
      · simpa [mtGo, hrow] using ih hpr
      · simpa [mtGo, hrow, alook, hpq] using ih hpr

theorem alook_mtGo (mb : Option Oid → Option Oid → Option Oid → String × Bool)
    (hashB : String → Oid) (tB tH tO : List (Path × Oid)) (ps : List Path)
    (p : Path) (hmem : p ∈ ps) (hnd : ps.Nodup) :
    alook (mtGo mb hashB tB tH tO ps).1 p =
      (mergeRow mb hashB (alook tB p) (alook tH p) (alook tO p)).map
        Prod.fst := by
  induction ps with
  | nil => simp at hmem
  | cons q rest ih =>
      have hnd' := List.nodup_cons.mp hnd
      cases List.mem_cons.mp hmem with
      | inl h =>
          subst h
          have hnp := alook_mtGo_of_not_mem mb hashB tB tH tO rest p hnd'.1
          rcases hrow : mergeRow mb hashB (alook tB p) (alook tH p) (alook tO p)
            with _ | ⟨e, isC⟩
          · simpa [mtGo, hrow] using hnp
          · simp [mtGo, hrow, alook]
      | inr h =>
          have hpq : p ≠ q := fun he => hnd'.1 (he ▸ h)
          rcases hrow : mergeRow mb hashB (alook tB q) (alook tH q) (alook tO q)
            with _ | ⟨e, isC⟩
          · simpa [mtGo, hrow] using ih h hnd'.2
          · simpa [mtGo, hrow, alook, hpq] using ih h hnd'.2

theorem mem_mtGo_conflicts
    (mb : Option Oid → Option Oid → Option Oid → String × Bool)
    (hashB : String → Oid) (tB tH tO : List (Path × Oid)) (ps : List Path)
    (p : Path) :
    p ∈ (mtGo mb hashB tB tH tO ps).2 ↔
      p ∈ ps ∧ ∃ e, mergeRow mb hashB (alook tB p) (alook tH p) (alook tO p) =
        some (e, true) := by
  induction ps with
  | nil => simp [mtGo]
  | cons q rest ih =>
      rcases hrow : mergeRow mb hashB (alook tB q) (alook tH q) (alook tO q)
        with _ | ⟨e, isC⟩
      · rw [show (mtGo mb hashB tB tH tO (q :: rest)).2 =
            (mtGo mb hashB tB tH tO rest).2 by simp [mtGo, hrow]]
        rw [ih]
        constructor
        · rintro ⟨hmem, he⟩; exact ⟨List.mem_cons_of_mem _ hmem, he⟩
        · rintro ⟨hmem, e', he⟩
          cases List.mem_cons.mp hmem with
          | inl hh => rw [hh] at he; rw [hrow] at he; cases he
          | inr hh => exact ⟨hh, e', he⟩
      · cases isC with
        | true =>
            rw [show (mtGo mb hashB tB tH tO (q :: rest)).2 =
                q :: (mtGo mb hashB tB tH tO rest).2 by simp [mtGo, hrow]]
            constructor
            · intro hmem
              cases List.mem_cons.mp hmem with
              | inl hh =>
                  subst hh
                  exact ⟨List.mem_cons_self p rest, e, hrow⟩
              | inr hh =>
                  obtain ⟨h1, h2⟩ := ih.mp hh
                  exact ⟨List.mem_cons_of_mem _ h1, h2⟩
            · rintro ⟨hmem, e', he⟩
              by_cases hpq : p = q
              · exact hpq ▸ List.mem_cons_self q _
              · cases List.mem_cons.mp hmem with
                | inl hh => exact absurd hh hpq
                | inr hh => exact List.mem_cons_of_mem _ (ih.mpr ⟨hh, e', he⟩)
        | false =>
            rw [show (mtGo mb hashB tB tH tO (q :: rest)).2 =
                (mtGo mb hashB tB tH tO rest).2 by simp [mtGo, hrow]]
            rw [ih]
            constructor
            · rintro ⟨hmem, he⟩; exact ⟨List.mem_cons_of_mem _ hmem, he⟩
            · rintro ⟨hmem, e', he⟩
              cases List.mem_cons.mp hmem with
              | inl hh =>
                  rw [hh] at he; rw [hrow] at he
                  cases he
              | inr hh => exact ⟨hh, e', he⟩

theorem alook_some_mem {α : Type} (l : List (String × α)) (p : String) (v : α)
    (h : alook l p = some v) : p ∈ l.map Prod.fst := by
  induction l with
  | nil => simp [alook] at h
  | cons hd tl ih =>
      obtain ⟨k0, v0⟩ := hd
      by_cases hp : p = k0
      · simp [hp]
      · simp [alook, hp] at h
        simp [ih h]

/-- Evaluation of the decision chain on a content-conflict row: all three
sides present and pairwise distinct.  The source reaches the unified diff3
merge and the stored entry depends on diff3's exit status
(diff_engine.py:118-135): a conflict entry when diff3 reports a conflict, a
clear entry holding the merged blob when diff3 merges cleanly. -/
theorem mergeRow_content (mb : Option Oid → Option Oid → Option Oid → String × Bool)
    (hashB : String → Oid) (b h o : Oid)
    (hhb : h ≠ b) (hob : o ≠ b) (hho : h ≠ o) :
    mergeRow mb hashB (some b) (some h) (some o) =
      if (mb (some b) (some h) (some o)).2 then
        some (.conflict "content_conflict"
          (hashB (mb (some b) (some h) (some o)).1) (some b) (some h) (some o),
          true)
      else
        some (.clear (hashB (mb (some b) (some h) (some o)).1), false) := by
  simp [mergeRow, hhb, hob, hho]

/-- C2, counterexample.  The stand-in for `diff3 -m` reports a clean merge
(exit status 0), which really happens when head and other edit disjoint
hunks of the base — e.g. base `1\n2\n3\n`, head edits line 1, other edits
line 3: three pairwise-distinct blobs that diff3 merges cleanly.  On such a
row (base, head, other all present and pairwise distinct) `merge_trees`
stores a clear entry and does not list the path as conflicted, contradicting
the claim that every such row yields a content_conflict entry and an entry in
the conflicts list. -/
theorem merge_trees_clean_on_conflict_row :
    ("h1" : String) ≠ "b1" ∧ ("o1" : String) ≠ "b1" ∧
    ("h1" : String) ≠ "o1" ∧
    merge_trees (fun _ _ _ => ("merged", false)) (fun s => s ++ "-oid")
        [("f", "b1")] [("f", "h1")] [("f", "o1")] =
      ([("f", IEntry.clear "merged-oid")], []) := by
  refine ⟨by decide, by decide, by decide, ?_⟩
  rfl

/-- C2, amended claim.  For every path present in all three trees with
head ≠ base, other ≠ base and head ≠ other, `merge_trees` invokes the
textual three-way merge; if the merge tool reports a conflict the path gets
a content_conflict entry holding the merged blob and the three preserved
sides and appears in the conflicts list; if the tool merges cleanly the path
gets a clear entry holding the merged blob and does not appear in the
conflicts list. -/
theorem merge_trees_content_row
    (mb : Option Oid → Option Oid → Option Oid → String × Bool)
    (hashB : String → Oid) (tB tH tO : List (Path × Oid)) (p : Path)
    (b h o : Oid)
    (hb : alook tB p = some b) (hh : alook tH p = some h)
    (ho : alook tO p = some o)
    (hhb : h ≠ b) (hob : o ≠ b) (hho : h ≠ o) :
    ((mb (some b) (some h) (some o)).2 = true →
      alook (merge_trees mb hashB tB tH tO).1 p =
        some (.conflict "content_conflict"
          (hashB (mb (some b) (some h) (some o)).1) (some b) (some h) (some o)) ∧
      p ∈ (merge_trees mb hashB tB tH tO).2) ∧
    ((mb (some b) (some h) (some o)).2 = false →
      alook (merge_trees mb hashB tB tH tO).1 p =
        some (.clear (hashB (mb (some b) (some h) (some o)).1)) ∧
      p ∉ (merge_trees mb hashB tB tH tO).2) := by
  have hmemk : p ∈ (tB.map Prod.fst ++ tH.map Prod.fst ++ tO.map Prod.fst) := by
    simp [alook_some_mem tB p b hb]
  have hmem : p ∈ dedupKeys
      (tB.map Prod.fst ++ tH.map Prod.fst ++ tO.map Prod.fst) [] := by
    rw [mem_dedupKeys]
    exact ⟨hmemk, by simp⟩
  have hnd := nodup_dedupKeys
    (tB.map Prod.fst ++ tH.map Prod.fst ++ tO.map Prod.fst) []
  have hlook := alook_mtGo mb hashB tB tH tO _ p hmem hnd
  rw [hb, hh, ho, mergeRow_content mb hashB b h o hhb hob hho] at hlook
  have hconf := mem_mtGo_conflicts mb hashB tB tH tO
    (dedupKeys (tB.map Prod.fst ++ tH.map Prod.fst ++ tO.map Prod.fst) []) p
  constructor
  · intro hflag
    rw [hflag] at hlook
    simp only [if_true] at hlook
    refine ⟨by simpa [merge_trees] using hlook, ?_⟩
    show p ∈ (mtGo mb hashB tB tH tO _).2
    rw [hconf]
    refine ⟨hmem, IEntry.conflict "content_conflict"
      (hashB (mb (some b) (some h) (some o)).1) (some b) (some h) (some o), ?_⟩
    rw [hb, hh, ho, mergeRow_content mb hashB b h o hhb hob hho, hflag]
    simp
  · intro hflag
    rw [hflag] at hlook
    simp only [Bool.false_eq_true, if_false] at hlook
    refine ⟨by simpa [merge_trees] using hlook, ?_⟩
    show p ∉ (mtGo mb hashB tB tH tO _).2
    rw [hconf]
    rintro ⟨-, e, he⟩
    rw [hb, hh, ho, mergeRow_content mb hashB b h o hhb hob hho, hflag] at he
    simp at he

/-- C2, witness for the amended claim: a concrete conflicted row (the merge
tool reports a conflict) and a concrete clean row. -/
theorem merge_trees_content_row_witness :
    (alook (merge_trees (fun _ _ _ => ("<<<", true)) (fun s => s ++ "-oid")
        [("f", "b1")] [("f", "h1")] [("f", "o1")]).1 "f" =
      some (.conflict "content_conflict" "<<<-oid"
        (some "b1") (some "h1") (some "o1")) ∧
    "f" ∈ (merge_trees (fun _ _ _ => ("<<<", true)) (fun s => s ++ "-oid")
        [("f", "b1")] [("f", "h1")] [("f", "o1")]).2) := by
  exact (merge_trees_content_row (fun _ _ _ => ("<<<", true))
    (fun s => s ++ "-oid") [("f", "b1")] [("f", "h1")] [("f", "o1")] "f"
    "b1" "h1" "o1" rfl rfl rfl (by decide) (by decide) (by decide)).1 rfl

/-! ### Commit graph walking and merge base (src/gitforge/repository.py)

The commit graph enters as `g : Oid → List Oid`, mapping a commit to its
parent list (`get_commit(oid).parents`).  The Python loops terminate only
because the graph on disk is finite; the embedding makes that explicit with
a fuel parameter.  Results distinguish fuel exhaustion (`none`, the loop did
not finish) from the loop's own `return None` (`some none`). -/

/-- `iter_commits_and_parents({root})` (repository.py:403-420) restricted to a
single root, as the source's `is_ancestor_of` uses it: a BFS-like walk that
yields each oid once, pushing the first parent at the front of the deque and
the remaining parents at the back. -/
def iter_commits_and_parents (g : Oid → List Oid) :
    Nat → List Oid → List Oid → List Oid
  | 0, _, _ => []
  | _ + 1, [], _ => []
  | fuel + 1, oid :: rest, visited =>
      if oid ∈ visited then iter_commits_and_parents g fuel rest visited
      else
        oid :: iter_commits_and_parents g fuel
          ((g oid).take 1 ++ rest ++ (g oid).drop 1) (oid :: visited)

/-- `is_ancestor_of(commit, maybe_ancestor)` (repository.py:335-336). -/
def is_ancestor_of (g : Oid → List Oid) (fuel : Nat) (commit maybe_ancestor : Oid) :
    Bool :=
  decide (maybe_ancestor ∈ iter_commits_and_parents g fuel [commit] [])

/-- The inner loop of Python's
`for parent in parents: if parent not in visited: visited.add; frontier.append`
(repository.py:315-318 and 326-329). -/
def pushParents (v f : List Oid) (ps : List Oid) : List Oid × List Oid :=
  ps.foldl
    (fun vf p => if p ∈ vf.1 then vf else (p :: vf.1, vf.2 ++ [p])) (v, f)

/-- The `while frontier1 or frontier2` loop of `get_merge_base`
(repository.py:308-331).  One recursion step performs one full loop
iteration: expand branch 1 (if its frontier is nonempty), then branch 2. -/
def mergeBaseLoop (g : Oid → List Oid) :
    Nat → List Oid → List Oid → List Oid → List Oid → Option (Option Oid)
  | 0, _, _, _, _ => none
  | fuel + 1, v1, f1, v2, f2 =>
      if f1 = [] ∧ f2 = [] then some none
      else
        match f1 with
        | [] =>
            match f2 with
            | [] => some none
            | c2 :: r2 =>
                if c2 ∈ v1 then some (some c2)
                else
                  let vf2 := pushParents v2 r2 (g c2)
                  mergeBaseLoop g fuel v1 [] vf2.1 vf2.2
        | c1 :: r1 =>
            if c1 ∈ v2 then some (some c1)
            else
              let vf1 := pushParents v1 r1 (g c1)
              match f2 with
              | [] => mergeBaseLoop g fuel vf1.1 vf1.2 v2 []
              | c2 :: r2 =>
                  if c2 ∈ vf1.1 then some (some c2)
                  else
                    let vf2 := pushParents v2 r2 (g c2)
                    mergeBaseLoop g fuel vf1.1 vf1.2 vf2.1 vf2.2

/-- `get_merge_base(oid1, oid2)` (repository.py:300-331): bidirectional BFS;
`some (some m)` is a found merge base, `some none` is the source's
`return None` (unrelated histories), `none` is fuel exhaustion. -/
def get_merge_base (g : Oid → List Oid) (fuel : Nat) (oid1 oid2 : Oid) :
    Option (Option Oid) :=
  if oid1 = oid2 then some (some oid1)
  else mergeBaseLoop g fuel [oid1] [oid1] [oid2] [oid2]

/-- C3, first conjunct of the claim: `get_merge_base(a, a) == a`, for every
fuel (the loop is never entered). -/
theorem get_merge_base_self (g : Oid → List Oid) (fuel : Nat) (a : Oid) :
    get_merge_base g fuel a a = some (some a) := by
  simp [get_merge_base]

/-- The commit graph refuting the claim's second conjunct: `c` is a merge
commit with parents `g` and `p`; `p`'s parent is `a`; `a`'s parent is `g`.
Then `a` is an ancestor of `c` (via `p`), but the bidirectional BFS meets at
`g` first. -/
def gCex : Oid → List Oid := fun x =>
  if x = "c" then ["g", "p"]
  else if x = "p" then ["a"]
  else if x = "a" then ["g"]
  else []

/-- C3, counterexample.  In the graph `gCex` (a four-commit history whose
tip is a merge commit), `is_ancestor_of(c, a)` holds, yet
`get_merge_base(c, a)` returns `g`, not `a`: the claim fails on graphs with
merge commits.  (Fuel 10 is more than the walk ever uses: both loops finish
well before it.) -/
theorem get_merge_base_ancestor_cex :
    is_ancestor_of gCex 10 "c" "a" = true ∧
    get_merge_base gCex 10 "c" "a" = some (some "g") ∧
    ("g" : String) ≠ "a" := by
  refine ⟨by decide, by decide, by decide⟩

/-! Supporting theory for the amended C3: in a commit graph where every
commit has at most one parent (no merge commits) and which is acyclic
(witnessed by a height function decreasing along parent edges), an ancestor
IS returned by the bidirectional BFS. -/

/-- Walking `d` parent edges from `x` (first parent at each step). -/
def iterPar (g : Oid → List Oid) : Nat → Oid → Option Oid
  | 0, x => some x
  | n + 1, x => (g x).head?.bind (iterPar g n)

theorem iterPar_add (g : Oid → List Oid) (m n : Nat) (x : Oid) :
    iterPar g (m + n) x = (iterPar g m x).bind (fun y => iterPar g n y) := by
  induction m generalizing x with
  | zero => simp [iterPar]
  | succ m ih =>
      rw [Nat.succ_add]
      cases hg : g x with
      | nil => simp [iterPar, hg]
      | cons y t => simp [iterPar, hg, ih]

theorem iterPar_height (g : Oid → List Oid) (hgt : Oid → Nat)
    (hdec : ∀ x y t, g x = y :: t → hgt y < hgt x) :
    ∀ m x a, iterPar g m x = some a → 1 ≤ m → hgt a < hgt x := by
  intro m
  induction m with
  | zero => intro x a _ h1; omega
  | succ m ih =>
      intro x a hiter _
      cases hg : g x with
      | nil => rw [iterPar, hg] at hiter; cases hiter
      | cons y t =>
          rw [iterPar, hg] at hiter
          simp only [List.head?_cons, Option.some_bind] at hiter
          rcases Nat.eq_zero_or_pos m with hm | hm
          · subst hm
            have hya : y = a := Option.some_inj.mp hiter
            subst hya
            exact hdec x y t hg
          · exact lt_trans (ih y a hiter hm) (hdec x y t hg)

theorem iterPar_unique (g : Oid → List Oid) (hgt : Oid → Nat)
    (hdec : ∀ x y t, g x = y :: t → hgt y < hgt x)
    (m n : Nat) (z a : Oid) (hm : iterPar g m z = some a)
    (hn : iterPar g n z = some a) : m = n := by
  have key : ∀ p q, p ≤ q → iterPar g p z = some a → iterPar g q z = some a →
      p = q := by
    intro p q hpq hp hq
    rcases Nat.eq_or_lt_of_le hpq with h | h
    · exact h
    · exfalso
      have : iterPar g (p + (q - p)) z = some a := by
        rw [Nat.add_sub_cancel' hpq]; exact hq
      rw [iterPar_add, hp] at this
      simp only [Option.some_bind] at this
      have := iterPar_height g hgt hdec (q - p) a a this (by omega)
      omega
  rcases le_total m n with h | h
  · exact key m n h hm hn
  · exact (key n m h hn hm).symm

theorem iterPar_no_cycle (g : Oid → List Oid) (hgt : Oid → Nat)
    (hdec : ∀ x y t, g x = y :: t → hgt y < hgt x)
    (m k : Nat) (z a : Oid) (h1 : iterPar g m z = some a)
    (h2 : iterPar g k a = some z) : z = a := by
  rcases Nat.eq_zero_or_pos m with hm | hm
  · subst hm
    rw [iterPar] at h1
    exact (Option.some_inj.mp h1).symm ▸ rfl
  · have ha : hgt a < hgt z := iterPar_height g hgt hdec m z a h1 hm
    rcases Nat.eq_zero_or_pos k with hk | hk
    · subst hk
      rw [iterPar] at h2
      exact absurd (Option.some_inj.mp h2 ▸ ha) (lt_irrefl _)
    · have hz : hgt z < hgt a := iterPar_height g hgt hdec k a z h2 hk
      omega

theorem iterPar_succ_of (g : Oid → List Oid) (k : Nat) (a y y' : Oid)
    (t : List Oid) (hk : iterPar g k a = some y) (hgy : g y = y' :: t) :
    iterPar g (k + 1) a = some y' := by
  rw [iterPar_add, hk]
  simp [iterPar, hgy]

theorem single_cases (g : Oid → List Oid) (single : ∀ x, (g x).length ≤ 1)
    (x : Oid) : g x = [] ∨ ∃ y, g x = [y] := by
  rcases hg : g x with _ | ⟨y, t⟩
  · exact Or.inl rfl
  · cases t with
    | nil => exact Or.inr ⟨y, rfl⟩
    | cons z t' =>
        have := single x
        rw [hg] at this
        simp at this

theorem iter_commits_nil (g : Oid → List Oid) (fuel : Nat)
    (visited : List Oid) : iter_commits_and_parents g fuel [] visited = [] := by
  cases fuel <;> rfl

/-- Membership in the single-root traversal of a single-parent graph gives a
parent-chain distance. -/
theorem mem_iter_single (g : Oid → List Oid) (single : ∀ x, (g x).length ≤ 1) :
    ∀ fuel x visited a, a ∈ iter_commits_and_parents g fuel [x] visited →
      ∃ d, d < fuel ∧ iterPar g d x = some a := by
  intro fuel
  induction fuel with
  | zero => intro x visited a h; simp [iter_commits_and_parents] at h
  | succ fuel ih =>
      intro x visited a h
      by_cases hx : x ∈ visited
      · rw [iter_commits_and_parents, if_pos hx, iter_commits_nil] at h
        cases h
      · rw [iter_commits_and_parents, if_neg hx] at h
        cases List.mem_cons.mp h with
        | inl he => exact ⟨0, by omega, by rw [he, iterPar]⟩
        | inr hmem =>
            rcases single_cases g single x with hg | ⟨y, hg⟩
            · rw [hg] at hmem
              simp only [List.take_nil, List.drop_nil, List.nil_append,
                List.append_nil] at hmem
              rw [iter_commits_nil] at hmem
              cases hmem
            · rw [hg] at hmem
              simp only [List.take_cons, List.take_nil, List.drop_succ_cons,
                List.drop_nil, List.nil_append, List.append_nil] at hmem
              obtain ⟨d, hd, hiter⟩ := ih y (x :: visited) a hmem
              exact ⟨d + 1, by omega, by rw [iterPar, hg]; exact hiter⟩

/-- One full iteration of the bidirectional-BFS loop with a nonempty first
frontier and an empty second frontier. -/
theorem mbl_step_nil (g : Oid → List Oid) (fuel : Nat) (v1 : List Oid)
    (x : Oid) (r1 v2 : List Oid) :
    mergeBaseLoop g (fuel + 1) v1 (x :: r1) v2 [] =
      if x ∈ v2 then some (some x)
      else mergeBaseLoop g fuel (pushParents v1 r1 (g x)).1
        (pushParents v1 r1 (g x)).2 v2 [] := rfl

/-- One full iteration of the bidirectional-BFS loop with both frontiers
nonempty. -/
theorem mbl_step_cons (g : Oid → List Oid) (fuel : Nat) (v1 : List Oid)
    (x : Oid) (r1 v2 : List Oid) (c2 : Oid) (r2 : List Oid) :
    mergeBaseLoop g (fuel + 1) v1 (x :: r1) v2 (c2 :: r2) =
      if x ∈ v2 then some (some x)
      else if c2 ∈ (pushParents v1 r1 (g x)).1 then some (some c2)
      else mergeBaseLoop g fuel (pushParents v1 r1 (g x)).1
        (pushParents v1 r1 (g x)).2 (pushParents v2 r2 (g c2)).1
        (pushParents v2 r2 (g c2)).2 := rfl

theorem pushParents_single_fst (v f : List Oid) (y : Oid) (hy : y ∉ v) :
    (pushParents v f [y]).1 = y :: v := by
  simp [pushParents, hy]

theorem pushParents_single_snd (v f : List Oid) (y : Oid) (hy : y ∉ v) :
    (pushParents v f [y]).2 = f ++ [y] := by
  simp [pushParents, hy]

theorem pushParents_mem_fst (v f : List Oid) (y : Oid) (hy : y ∈ v) :
    (pushParents v f [y]).1 = v := by
  simp [pushParents, hy]

theorem pushParents_mem_snd (v f : List Oid) (y : Oid) (hy : y ∈ v) :
    (pushParents v f [y]).2 = f := by
  simp [pushParents, hy]

theorem pushParents_nil (v f : List Oid) : pushParents v f [] = (v, f) := rfl

/-- Loop invariant for the amended C3: if the first frontier is the singleton
`x` at chain distance `j` from `a`, every first-visited node lies on the
chain at distance ≥ j, every second-visited node is an iterate of `a`, the
second frontier is inside the second visited set and `a` is second-visited,
then the loop returns `a`. -/
theorem mbl_chain (g : Oid → List Oid) (hgt : Oid → Nat)
    (single : ∀ x, (g x).length ≤ 1)
    (hdec : ∀ x y t, g x = y :: t → hgt y < hgt x) (a : Oid) :
    ∀ j fuel x v1 v2 f2, j + 1 ≤ fuel →
      iterPar g j x = some a →
      (∀ z ∈ v1, ∃ m, j ≤ m ∧ iterPar g m z = some a) →
      (∀ y ∈ v2, ∃ k, iterPar g k a = some y) →
      (∀ y ∈ f2, y ∈ v2) →
      a ∈ v2 →
      mergeBaseLoop g fuel v1 [x] v2 f2 = some (some a) := by
  intro j
  induction j with
  | zero =>
      intro fuel x v1 v2 f2 hfuel hx hv1 hv2 hf2 ha
      rw [iterPar] at hx
      cases hx
      obtain ⟨fuel', rfl⟩ : ∃ f', fuel = f' + 1 := ⟨fuel - 1, by omega⟩
      cases f2 with
      | nil => rw [mbl_step_nil, if_pos ha]
      | cons c2 r2 => rw [mbl_step_cons, if_pos ha]
  | succ j ih =>
      intro fuel x v1 v2 f2 hfuel hx hv1 hv2 hf2 ha
      obtain ⟨fuel', rfl⟩ : ∃ f', fuel = f' + 1 := ⟨fuel - 1, by omega⟩
      have hfuel' : j + 1 ≤ fuel' := by omega
      -- the chain continues: g x = [y] with iterPar g j y = some a
      obtain ⟨y, hgx, hy⟩ : ∃ y, g x = [y] ∧ iterPar g j y = some a := by
        rcases single_cases g single x with hg | ⟨y, hg⟩
        · rw [iterPar, hg] at hx; cases hx
        · rw [iterPar, hg] at hx
          simp only [List.head?_cons, Option.some_bind] at hx
          exact ⟨y, hg, hx⟩
      -- x is strictly below a, so x is not an iterate of a: x ∉ v2
      have hxv2 : x ∉ v2 := by
        intro hmem
        obtain ⟨k, hk⟩ := hv2 x hmem
        have := iterPar_no_cycle g hgt hdec (j + 1) k x a hx hk
        subst this
        have := iterPar_height g hgt hdec (j + 1) x x hx (by omega)
        omega
      -- y is at distance j, everything in v1 is at distance ≥ j+1: y ∉ v1
      have hyv1 : y ∉ v1 := by
        intro hmem
        obtain ⟨m, hmj, hm⟩ := hv1 y hmem
        have := iterPar_unique g hgt hdec m j y a hm hy
        omega
      have hv1' : ∀ z ∈ y :: v1, ∃ m, j ≤ m ∧ iterPar g m z = some a := by
        intro z hz
        cases List.mem_cons.mp hz with
        | inl he => exact ⟨j, le_refl j, he ▸ hy⟩
        | inr hmem =>
            obtain ⟨m, hmj, hm⟩ := hv1 z hmem
            exact ⟨m, by omega, hm⟩
      have hpfst : (pushParents v1 [] (g x)).1 = y :: v1 := by
        rw [hgx]; exact pushParents_single_fst v1 [] y hyv1
      have hpsnd : (pushParents v1 [] (g x)).2 = [y] := by
        rw [hgx]; exact pushParents_single_snd v1 [] y hyv1
      cases f2 with
      | nil =>
          rw [mbl_step_nil, if_neg hxv2, hpfst, hpsnd]
          exact ih fuel' y (y :: v1) v2 [] hfuel' hy hv1' hv2
            (by intro z hz; cases hz) ha
      | cons c2 r2 =>
          rw [mbl_step_cons, if_neg hxv2, hpfst, hpsnd]
          by_cases hc2 : c2 ∈ y :: v1
          · rw [if_pos hc2]
            -- the met node is a common chain node: it must be a itself
            have hc2v2 : c2 ∈ v2 := hf2 c2 (List.mem_cons_self c2 r2)
            obtain ⟨k, hk⟩ := hv2 c2 hc2v2
            obtain ⟨m, _, hm⟩ := hv1' c2 hc2
            have := iterPar_no_cycle g hgt hdec m k c2 a hm hk
            rw [this]
          · rw [if_neg hc2]
            have hr2 : ∀ z ∈ r2, z ∈ v2 :=
              fun z hz => hf2 z (List.mem_cons_of_mem c2 hz)
            obtain ⟨k, hk⟩ := hv2 c2 (hf2 c2 (List.mem_cons_self c2 r2))
            rcases single_cases g single c2 with hg2 | ⟨c2', hg2⟩
            · rw [hg2, pushParents_nil]
              exact ih fuel' y (y :: v1) v2 r2 hfuel' hy hv1' hv2 hr2 ha
            · by_cases hc2' : c2' ∈ v2
              · rw [show (pushParents v2 r2 (g c2)).1 = v2 by
                    rw [hg2]; exact pushParents_mem_fst v2 r2 c2' hc2',
                  show (pushParents v2 r2 (g c2)).2 = r2 by
                    rw [hg2]; exact pushParents_mem_snd v2 r2 c2' hc2']
                exact ih fuel' y (y :: v1) v2 r2 hfuel' hy hv1' hv2 hr2 ha
              · rw [show (pushParents v2 r2 (g c2)).1 = c2' :: v2 by
                    rw [hg2]; exact pushParents_single_fst v2 r2 c2' hc2',
                  show (pushParents v2 r2 (g c2)).2 = r2 ++ [c2'] by
                    rw [hg2]; exact pushParents_single_snd v2 r2 c2' hc2']
                have hv2' : ∀ z ∈ c2' :: v2, ∃ k', iterPar g k' a = some z := by
                  intro z hz
                  cases List.mem_cons.mp hz with
                  | inl he =>
                      exact ⟨k + 1, he ▸ iterPar_succ_of g k a c2 c2' [] hk hg2⟩
                  | inr hmem => exact hv2 z hmem
                have hf2' : ∀ z ∈ r2 ++ [c2'], z ∈ c2' :: v2 := by
                  intro z hz
                  rcases List.mem_append.mp hz with hz1 | hz2
                  · exact List.mem_cons_of_mem c2' (hr2 z hz1)
                  · simp at hz2
                    exact hz2 ▸ List.mem_cons_self c2' v2
                exact ih fuel' y (y :: v1) (c2' :: v2) (r2 ++ [c2']) hfuel' hy
                  hv1' hv2' hf2' (List.mem_cons_of_mem c2' ha)

/-- C3, amended claim.  `get_merge_base(a, a) = a` always
(`get_merge_base_self` above); and in a commit graph where every commit has
at most one parent (no merge commits) and which is acyclic (there is a
height function strictly decreasing along parent edges),
`is_ancestor_of(c, a)` implies `get_merge_base(c, a) = a` — the second
conjunct of the original claim fails on graphs with merge commits
(`get_merge_base_ancestor_cex`). -/
theorem get_merge_base_ancestor (g : Oid → List Oid) (hgt : Oid → Nat)
    (single : ∀ x, (g x).length ≤ 1)
    (hdec : ∀ x y t, g x = y :: t → hgt y < hgt x)
    (fuel : Nat) (c a : Oid)
    (hanc : is_ancestor_of g fuel c a = true) :
    get_merge_base g fuel c a = some (some a) := by
  have hmem : a ∈ iter_commits_and_parents g fuel [c] [] := by
    simpa [is_ancestor_of] using hanc
  obtain ⟨d, hd, hiter⟩ := mem_iter_single g single fuel c [] a hmem
  by_cases hca : c = a
  · subst hca
    exact get_merge_base_self g fuel c
  · rw [get_merge_base, if_neg hca]
    have hd1 : 1 ≤ d := by
      rcases Nat.eq_zero_or_pos d with h0 | h1
      · subst h0; rw [iterPar] at hiter; cases hiter; exact absurd rfl hca
      · exact h1
    exact mbl_chain g hgt single hdec a d fuel c [c] [a] [a] (by omega) hiter
      (fun z hz => by
        simp at hz
        exact ⟨d, le_refl d, hz ▸ hiter⟩)
      (fun z hz => by
        simp at hz
        exact ⟨0, by rw [iterPar, hz]⟩)
      (fun z hz => hz)
      (List.mem_singleton.mpr rfl)

/-- A three-commit linear chain `c → b → a` (no merge commits) and its
height function. -/
def gChain : Oid → List Oid := fun x =>
  if x = "c" then ["b"] else if x = "b" then ["a"] else []

def hChain : Oid → Nat := fun x =>
  if x = "c" then 2 else if x = "b" then 1 else 0

/-- C3, witness for the amended claim, on the chain `c → b → a`. -/
theorem get_merge_base_ancestor_witness :
    get_merge_base gChain 5 "c" "a" = some (some "a") := by
  refine get_merge_base_ancestor gChain hChain ?_ ?_ 5 "c" "a" (by decide)
  · intro x
    by_cases h1 : x = "c"
    · simp [gChain, h1]
    · by_cases h2 : x = "b" <;> simp [gChain, h1, h2]
  · intro x y t h
    simp only [gChain] at h
    by_cases h1 : x = "c"
    · subst h1
      rw [if_pos rfl] at h
      injection h with hy ht
      subst hy
      decide
    · rw [if_neg h1] at h
      by_cases h2 : x = "b"
      · subst h2
        rw [if_pos rfl] at h
        injection h with hy ht
        subst hy
        decide
      · rw [if_neg h2] at h
        exact List.noConfusion h

/-! ### Reference store (src/gitforge/objects.py, refs) and repository state

A ref file's text is either a 40-hex oid or `ref: <name>`; `update_ref`
writes exactly these two shapes and `_get_ref_internal` inverts them
(`value.startswith('ref:')` plus strip), so file contents are modelled by
the sum type `RefContent`.  Oids never start with `ref:`.  The recursive
dereference of `_get_ref_internal` terminates only because ref files on disk
form no cycle; the embedding uses a fuel of 32 (every state built by the
program needs at most 2). -/

inductive RefContent where
  | direct (oid : String)
  | symref (name : String)
  deriving DecidableEq

structure RefValue where
  symbolic : Bool
  value : Option String
  deriving DecidableEq

/-- `_get_ref_internal(ref, deref)` (objects.py:66-82): `none` is fuel
exhaustion (a symbolic-ref cycle, on which the source recurses forever). -/
def getRefInternal (refs : List (String × RefContent)) :
    Nat → String → Bool → Option (String × RefValue)
  | 0, _, _ => none
  | fuel + 1, ref, deref =>
      match alook refs ref with
      | none => some (ref, ⟨false, none⟩)
      | some (.direct v) => some (ref, ⟨false, some v⟩)
      | some (.symref target) =>
          if deref then getRefInternal refs fuel target true
          else some (ref, ⟨true, some target⟩)

/-- `get_ref(ref, deref)` (objects.py:59-60). -/
def getRefV (refs : List (String × RefContent)) (ref : String) (deref : Bool) :
    RefValue :=
  ((getRefInternal refs 32 ref deref).map Prod.snd).getD ⟨false, none⟩

/-- What `get_ref(ref).value` resolves to. -/
def resolveRef (refs : List (String × RefContent)) (ref : String) :
    Option String :=
  (getRefV refs ref true).value

/-- `update_ref(ref, value, deref)` (objects.py:45-57): resolve the final
name (write-through when `deref` and the chain is symbolic), then write the
file. -/
def updateRef (refs : List (String × RefContent)) (ref : String)
    (symbolic : Bool) (v : String) (deref : Bool) :
    List (String × RefContent) :=
  let name := ((getRefInternal refs 32 ref deref).map Prod.fst).getD ref
  aset refs name (if symbolic then .symref v else .direct v)

/-- `delete_ref(ref, deref)` (objects.py:62-64). -/
def deleteRef (refs : List (String × RefContent)) (ref : String)
    (deref : Bool) : List (String × RefContent) :=
  adel refs (((getRefInternal refs 32 ref deref).map Prod.fst).getD ref)

/- Resolution lemmas at fuel 32 (the fuel is never exhausted on the acyclic
shapes the theorems hypothesise). -/

theorem gri_missing (refs : List (String × RefContent)) (n : Nat)
    (ref : String) (d : Bool) (h : alook refs ref = none) :
    getRefInternal refs (n + 1) ref d = some (ref, ⟨false, none⟩) := by
  simp [getRefInternal, h]

theorem gri_direct (refs : List (String × RefContent)) (n : Nat)
    (ref v : String) (d : Bool) (h : alook refs ref = some (.direct v)) :
    getRefInternal refs (n + 1) ref d = some (ref, ⟨false, some v⟩) := by
  simp [getRefInternal, h]

theorem gri_sym_deref (refs : List (String × RefContent)) (n : Nat)
    (ref t : String) (h : alook refs ref = some (.symref t)) :
    getRefInternal refs (n + 1) ref true = getRefInternal refs n t true := by
  simp [getRefInternal, h]

theorem gri_sym_noderef (refs : List (String × RefContent)) (n : Nat)
    (ref t : String) (h : alook refs ref = some (.symref t)) :
    getRefInternal refs (n + 1) ref false = some (ref, ⟨true, some t⟩) := by
  simp [getRefInternal, h]

theorem gri32_direct (refs : List (String × RefContent)) (ref v : String)
    (d : Bool) (h : alook refs ref = some (.direct v)) :
    getRefInternal refs 32 ref d = some (ref, ⟨false, some v⟩) := by
  rw [show (32 : Nat) = 31 + 1 from rfl]
  exact gri_direct refs 31 ref v d h

theorem gri32_missing (refs : List (String × RefContent)) (ref : String)
    (d : Bool) (h : alook refs ref = none) :
    getRefInternal refs 32 ref d = some (ref, ⟨false, none⟩) := by
  rw [show (32 : Nat) = 31 + 1 from rfl]
  exact gri_missing refs 31 ref d h

theorem gri32_sym_direct (refs : List (String × RefContent))
    (ref br v : String) (h1 : alook refs ref = some (.symref br))
    (h2 : alook refs br = some (.direct v)) :
    getRefInternal refs 32 ref true = some (br, ⟨false, some v⟩) := by
  rw [show (32 : Nat) = 31 + 1 from rfl, gri_sym_deref refs 31 ref br h1,
    show (31 : Nat) = 30 + 1 from rfl]
  exact gri_direct refs 30 br v true h2

theorem gri32_sym_missing (refs : List (String × RefContent))
    (ref br : String) (h1 : alook refs ref = some (.symref br))
    (h2 : alook refs br = none) :
    getRefInternal refs 32 ref true = some (br, ⟨false, none⟩) := by
  rw [show (32 : Nat) = 31 + 1 from rfl, gri_sym_deref refs 31 ref br h1,
    show (31 : Nat) = 30 + 1 from rfl]
  exact gri_missing refs 30 br true h2

theorem getRefV_direct (refs : List (String × RefContent)) (ref v : String)
    (d : Bool) (h : alook refs ref = some (.direct v)) :
    getRefV refs ref d = ⟨false, some v⟩ := by
  simp [getRefV, gri32_direct refs ref v d h]

theorem getRefV_missing (refs : List (String × RefContent)) (ref : String)
    (d : Bool) (h : alook refs ref = none) :
    getRefV refs ref d = ⟨false, none⟩ := by
  simp [getRefV, gri32_missing refs ref d h]

theorem getRefV_sym_direct (refs : List (String × RefContent))
    (ref br v : String) (h1 : alook refs ref = some (.symref br))
    (h2 : alook refs br = some (.direct v)) :
    getRefV refs ref true = ⟨false, some v⟩ := by
  simp [getRefV, gri32_sym_direct refs ref br v h1 h2]

theorem getRefV_sym_missing (refs : List (String × RefContent))
    (ref br : String) (h1 : alook refs ref = some (.symref br))
    (h2 : alook refs br = none) :
    getRefV refs ref true = ⟨false, none⟩ := by
  simp [getRefV, gri32_sym_missing refs ref br h1 h2]

theorem updateRef_direct (refs : List (String × RefContent)) (ref v : String)
    (sym : Bool) (w : String) (d : Bool)
    (h : alook refs ref = some (.direct v)) :
    updateRef refs ref sym w d =
      aset refs ref (if sym then .symref w else .direct w) := by
  simp [updateRef, gri32_direct refs ref v d h]

theorem updateRef_missing (refs : List (String × RefContent)) (ref : String)
    (sym : Bool) (w : String) (d : Bool) (h : alook refs ref = none) :
    updateRef refs ref sym w d =
      aset refs ref (if sym then .symref w else .direct w) := by
  simp [updateRef, gri32_missing refs ref d h]

theorem updateRef_sym_direct (refs : List (String × RefContent))
    (ref br v : String) (sym : Bool) (w : String)
    (h1 : alook refs ref = some (.symref br))
    (h2 : alook refs br = some (.direct v)) :
    updateRef refs ref sym w true =
      aset refs br (if sym then .symref w else .direct w) := by
  simp [updateRef, gri32_sym_direct refs ref br v h1 h2]

theorem updateRef_sym_missing (refs : List (String × RefContent))
    (ref br : String) (sym : Bool) (w : String)
    (h1 : alook refs ref = some (.symref br)) (h2 : alook refs br = none) :
    updateRef refs ref sym w true =
      aset refs br (if sym then .symref w else .direct w) := by
  simp [updateRef, gri32_sym_missing refs ref br h1 h2]

theorem deleteRef_false (refs : List (String × RefContent)) (ref : String) :
    deleteRef refs ref false = adel refs ref := by
  rw [deleteRef, show (32 : Nat) = 31 + 1 from rfl]
  cases h : alook refs ref with
  | none => simp [getRefInternal, h]
  | some rc => cases rc <;> simp [getRefInternal, h]

/- Key-uniqueness machinery: every state the program builds has one file per
path; `aset`/`adel` preserve that. -/

def keysNodup {α : Type} (l : List (String × α)) : Prop :=
  (l.map Prod.fst).Nodup

theorem alook_none_of_not_mem {α : Type} (l : List (String × α)) (k : String)
    (h : k ∉ l.map Prod.fst) : alook l k = none := by
  induction l with
  | nil => rfl
  | cons hd tl ih =>
      obtain ⟨k0, v0⟩ := hd
      simp only [List.map_cons, List.mem_cons, not_or] at h
      simp [alook, h.1, ih h.2]

theorem mem_keys_aset {α : Type} (l : List (String × α)) (k : String) (v : α)
    (p : String) :
    p ∈ (aset l k v).map Prod.fst ↔ p ∈ l.map Prod.fst ∨ p = k := by
  induction l with
  | nil => simp [aset]
  | cons hd tl ih =>
      obtain ⟨k0, v0⟩ := hd
      by_cases h1 : k = k0
      · subst h1
        simp [aset]
        tauto
      · simp [aset, h1, ih]
        tauto

theorem keysNodup_aset {α : Type} (l : List (String × α)) (k : String)
    (v : α) (h : keysNodup l) : keysNodup (aset l k v) := by
  induction l with
  | nil => simp [keysNodup, aset]
  | cons hd tl ih =>
      obtain ⟨k0, v0⟩ := hd
      unfold keysNodup at h ⊢
      simp only [List.map_cons, List.nodup_cons] at h
      by_cases h1 : k = k0
      · subst h1
        simpa [aset] using h
      · simp only [aset, if_neg h1, List.map_cons, List.nodup_cons]
        refine ⟨fun hmem => ?_, ih h.2⟩
        rcases (mem_keys_aset tl k v k0).mp hmem with hm | hm
        · exact h.1 hm
        · exact h1 hm.symm

theorem mem_keys_adel {α : Type} (l : List (String × α)) (k : String)
    (p : String) (h : p ∈ (adel l k).map Prod.fst) : p ∈ l.map Prod.fst := by
  induction l with
  | nil => simp [adel] at h
  | cons hd tl ih =>
      obtain ⟨k0, v0⟩ := hd
      by_cases h1 : k = k0
      · subst h1
        simp only [adel, if_pos rfl] at h
        simp only [List.map_cons, List.mem_cons]
        exact Or.inr h
      · simp only [adel, if_neg h1, List.map_cons, List.mem_cons] at h
        simp only [List.map_cons, List.mem_cons]
        rcases h with h | h
        · exact Or.inl h
        · exact Or.inr (ih h)

theorem keysNodup_adel {α : Type} (l : List (String × α)) (k : String)
    (h : keysNodup l) : keysNodup (adel l k) := by
  induction l with
  | nil => simpa [adel] using h
  | cons hd tl ih =>
      obtain ⟨k0, v0⟩ := hd
      unfold keysNodup at h ⊢
      simp only [List.map_cons, List.nodup_cons] at h
      by_cases h1 : k = k0
      · subst h1
        simpa [adel] using h.2
      · simp only [adel, if_neg h1, List.map_cons, List.nodup_cons]
        exact ⟨fun hmem => h.1 (mem_keys_adel tl k k0 hmem), ih h.2⟩

theorem alook_adel_self {α : Type} (l : List (String × α)) (k : String)
    (h : keysNodup l) : alook (adel l k) k = none := by
  induction l with
  | nil => rfl
  | cons hd tl ih =>
      obtain ⟨k0, v0⟩ := hd
      unfold keysNodup at h
      simp only [List.map_cons, List.nodup_cons] at h
      by_cases h1 : k = k0
      · subst h1
        simp only [adel, if_pos rfl]
        exact alook_none_of_not_mem tl k h.1
      · simp only [adel, if_neg h1, alook, if_neg h1]
        exact ih h.2

theorem alook_adel_ne {α : Type} (l : List (String × α)) (k k' : String)
    (h : k' ≠ k) : alook (adel l k) k' = alook l k' := by
  induction l with
  | nil => rfl
  | cons hd tl ih =>
      obtain ⟨k0, v0⟩ := hd
      by_cases h1 : k = k0
      · subst h1
        simp [adel, alook, h]
      · by_cases h2 : k' = k0
        · simp [adel, alook, h1, h2]
        · simp [adel, alook, h1, h2, ih]

/-! ### Repository operations (src/gitforge/repository.py)

State carried by an operation: the ref files under `.gitforge/` (HEAD,
MERGE_HEAD, ORIG_HEAD, CHERRY_PICK_HEAD, refs/...), the persisted rebase
state (REBASE_STATE), the index, the working tree (non-ignored files only;
ignored paths are invisible to `_empty_current_directory` and
`get_working_tree`) and the object store (payload text keyed by oid).

Object reads go through the read-only parameters `gc` (`get_commit`), `gt`
(`get_tree`, the flat `path ↦ oid` view of a tree object) and `gb`
(`get_object(oid, 'blob')`); the claims below never read back an object
written during the same operation through these parameters. -/

structure RebaseSt where
  origHead : String
  upstream : String
  commits : List String
  currentIndex : Nat
  deriving DecidableEq

structure GCommit where
  tree : Oid
  parents : List Oid

structure Repo where
  refs : List (String × RefContent)
  rebase : Option RebaseSt
  index : List (Path × IEntry)
  working : List (Path × String)
  store : List (Oid × String)
  deriving DecidableEq

/-- The oid an index entry carries: conflict entries always hold the merged
oid (diff_engine.py:119-129), so this is never `none` for entries this
program produces; `write_tree`'s and `_checkout_index`'s `oid is None` skip
is dead code for such states. -/
def entryOid : IEntry → Option Oid
  | .clear o => some o
  | .conflict _ o _ _ _ => some o

/-- `_checkout_index(index)` (repository.py:144-154): empty the working tree,
then write each entry's blob (conflict entries are written too, with the
conflict-marker blob). -/
def checkoutIndex (gb : Oid → String) (index : List (Path × IEntry)) :
    List (Path × String) :=
  index.filterMap (fun pe => (entryOid pe.2).map (fun o => (pe.1, gb o)))

/-- `read_tree(tree_oid, update_working)` (repository.py:115-124). -/
def readTree (gt : Oid → List (Path × Oid)) (gb : Oid → String)
    (treeOid : Oid) (updateWorking : Bool) (r : Repo) : Repo :=
  let newIndex := (gt treeOid).map (fun po => (po.1, IEntry.clear po.2))
  { r with
      index := newIndex
      working := if updateWorking then checkoutIndex gb newIndex else r.working }

/-- `reset(oid, soft, mixed, hard)` (repository.py:227-237); the
default-to-soft line only matters when no mode is set, in which case neither
`mixed` nor `hard` holds and only HEAD moves. -/
def resetOp (gc : Oid → GCommit) (gt : Oid → List (Path × Oid))
    (gb : Oid → String) (oid : Oid) (soft mixed hard : Bool) (r : Repo) :
    Repo :=
  let r1 := { r with refs := updateRef r.refs "HEAD" false oid true }
  if mixed || hard then readTree gt gb (gc oid).tree hard r1 else r1

inductive MergeRes where
  | inProgress
  | fastForward
  | merged (conflicts : List Path)
  | noCommonHistory
  | headUnset
  | outOfFuel
  deriving DecidableEq

/-- `merge(other)` (repository.py:239-274).  `headUnset` models the
`assert HEAD` failure, `noCommonHistory` the crash of
`get_commit(None)` when the merge base is `None`; `outOfFuel` never occurs
on the finite graphs the theorems use.  Object-store writes of merged blobs
(inside `merge_trees`) are not tracked — no claim below inspects them. -/
def mergeOp (gc : Oid → GCommit) (gt : Oid → List (Path × Oid))
    (gb : Oid → String)
    (mb : Option Oid → Option Oid → Option Oid → String × Bool)
    (hashB : String → Oid) (fuel : Nat) (other : Oid) (r : Repo) :
    MergeRes × Repo :=
  match (getRefV r.refs "MERGE_HEAD" true).value with
  | some _ => (.inProgress, r)
  | none =>
      match (getRefV r.refs "HEAD" true).value with
      | none => (.headUnset, r)
      | some h =>
          match get_merge_base (fun o => (gc o).parents) fuel other h with
          | none => (.outOfFuel, r)
          | some none => (.noCommonHistory, r)
          | some (some m) =>
              if m = h then
                let r1 := readTree gt gb (gc other).tree true r
                (.fastForward,
                  { r1 with refs := updateRef r1.refs "HEAD" false other true })
              else
                let refs1 := updateRef r.refs "MERGE_HEAD" false other true
                let refs2 := updateRef refs1 "ORIG_HEAD" false h true
                let mt := merge_trees mb hashB (gt (gc m).tree) (gt (gc h).tree)
                  (gt (gc other).tree)
                (.merged mt.2,
                  { r with
                      refs := refs2
                      index := mt.1
                      working := checkoutIndex gb mt.1 })

/-- `has_conflicts(index)` (objects.py:22-24). -/
def hasConflictsI (index : List (Path × IEntry)) : Bool :=
  index.any (fun pe =>
    match pe.2 with
    | .conflict _ _ _ _ _ => true
    | _ => false)

/-- `get_conflicted_files(index)` (objects.py:27-29). -/
def conflictedFiles (index : List (Path × IEntry)) : List Path :=
  (index.filter (fun pe =>
    match pe.2 with
    | .conflict _ _ _ _ _ => true
    | _ => false)).map Prod.fst

/-- Entry sort key of `write_tree_recursive` (repository.py:49-51): Python
sorts the `(name, oid, type)` tuples lexicographically. -/
def tupLt (a b : String × String × String) : Bool :=
  a.1 < b.1 || (a.1 = b.1 && (a.2.1 < b.2.1 || (a.2.1 = b.2.1 && a.2.2 < b.2.2)))

def sInsert (x : String × String × String) :
    List (String × String × String) → List (String × String × String)
  | [] => [x]
  | y :: ys => if tupLt x y then x :: y :: ys else y :: sInsert x ys

def sortTuples (l : List (String × String × String)) :
    List (String × String × String) :=
  l.foldr sInsert []

/-- `write_tree_recursive` (repository.py:38-52) on the nested dict built
from the index, phrased by recursion on the maximal path depth (entries
carry their remaining path components).  `hashT` is
`hash_object(·, 'tree')`; the stored payload is the serialized tree text. -/
def writeTreeAux (hashT : String → Oid) :
    Nat → List (List String × Oid) → List (Oid × String) → Oid × List (Oid × String)
  | 0, _, s => ("", s)
  | d + 1, entries, s =>
      let files := entries.filterMap (fun e =>
        match e.1 with
        | [n] => some (n, e.2, "blob")
        | _ => none)
      let dirNames := dedupKeys (entries.filterMap (fun e =>
        match e.1 with
        | n :: _ :: _ => some n
        | _ => none)) []
      let dres := dirNames.foldl (fun (acc : List (String × String × String) × List (Oid × String)) dn =>
        let sub := entries.filterMap (fun e =>
          match e.1 with
          | n :: rest =>
              match rest with
              | [] => none
              | _ :: _ => if n = dn then some (rest, e.2) else none
          | [] => none)
        let res := writeTreeAux hashT d sub acc.2
        (acc.1 ++ [(dn, res.1, "tree")], res.2)) ([], s)
      let ents := sortTuples (files ++ dres.1)
      let text := (ents.map (fun e => e.2.2 ++ " " ++ e.2.1 ++ " " ++ e.1 ++ "\n")).foldl
        (fun a b => a ++ b) ""
      let oid := hashT text
      (oid, aset dres.2 oid text)

/-- `write_tree()` (repository.py:18-54): entries with an oid, keyed by the
slash-split path, written bottom-up. -/
def writeTree (hashT : String → Oid) (index : List (Path × IEntry))
    (s : List (Oid × String)) : Oid × List (Oid × String) :=
  let entries := index.filterMap (fun pe =>
    (entryOid pe.2).map (fun o => (pe.1.splitOn "/", o)))
  writeTreeAux hashT ((entries.map (fun e => e.1.length)).foldl max 0 + 1)
    entries s

/-- `commit(message, ...)` (repository.py:157-203).  The author/committer
lines are opaque parameters (identity and clock are environment inputs).
On the conflict guard the `ConflictException` carries the conflicted files
and — the `with get_index()` block being aborted by the exception — nothing
has been written: the returned state is the input state.  `hashC` is
`hash_object(·, 'commit')`. -/
def commitOp (hashT hashC : String → Oid) (message authorLine committerLine : String)
    (allowMergeParent : Bool) (r : Repo) : Except (List Path) Oid × Repo :=
  if hasConflictsI r.index then (.error (conflictedFiles r.index), r)
  else
    let wt := writeTree hashT r.index r.store
    let headV := (getRefV r.refs "HEAD" true).value
    let data1 := "tree " ++ wt.1 ++ "\n" ++
      (match headV with
       | some h => "parent " ++ h ++ "\n"
       | none => "")
    let mh := if allowMergeParent then (getRefV r.refs "MERGE_HEAD" true).value
      else none
    let data2 := data1 ++
      (match mh with
       | some m => "parent " ++ m ++ "\n"
       | none => "")
    let refs1 := match mh with
      | some _ => deleteRef r.refs "MERGE_HEAD" false
      | none => r.refs
    let oh := if allowMergeParent then (getRefV refs1 "ORIG_HEAD" true).value
      else none
    let refs2 := match oh with
      | some _ => deleteRef refs1 "ORIG_HEAD" false
      | none => refs1
    let data := data2 ++ authorLine ++ committerLine ++ "\n" ++ message ++ "\n"
    let oid := hashC data
    let refs3 := updateRef refs2 "HEAD" false oid true
    (.ok oid, { r with refs := refs3, store := aset wt.2 oid data })

/-- `merge_abort()` (repository.py:277-297). -/
def mergeAbortOp (gc : Oid → GCommit) (gt : Oid → List (Path × Oid))
    (gb : Oid → String) (r : Repo) : Repo :=
  match (getRefV r.refs "MERGE_HEAD" true).value with
  | none => r
  | some _ =>
      match (getRefV r.refs "ORIG_HEAD" true).value with
      | none => r
      | some orig =>
          let r1 := resetOp gc gt gb orig false false true r
          { r1 with
              refs := deleteRef (deleteRef r1.refs "MERGE_HEAD" false)
                "ORIG_HEAD" false }

/-- `_cherry_pick_cleanup()` (repository.py:652-657). -/
def cherryPickCleanup (r : Repo) : Repo :=
  let refs1 := match (getRefV r.refs "CHERRY_PICK_HEAD" true).value with
    | some _ => deleteRef r.refs "CHERRY_PICK_HEAD" false
    | none => r.refs
  let refs2 := match (getRefV refs1 "ORIG_HEAD" true).value with
    | some _ => deleteRef refs1 "ORIG_HEAD" false
    | none => refs1
  { r with refs := refs2 }

/-- `cherry_pick_abort()` (repository.py:635-649). -/
def cherryPickAbortOp (gc : Oid → GCommit) (gt : Oid → List (Path × Oid))
    (gb : Oid → String) (r : Repo) : Repo :=
  match (getRefV r.refs "CHERRY_PICK_HEAD" true).value with
  | none => r
  | some _ =>
      match (getRefV r.refs "ORIG_HEAD" true).value with
      | none => r
      | some orig => cherryPickCleanup (resetOp gc gt gb orig false false true r)

/-- `_rebase_cleanup()` (repository.py:907-912). -/
def rebaseCleanup (r : Repo) : Repo :=
  let r1 := { r with rebase := none }
  match (getRefV r1.refs "ORIG_HEAD" true).value with
  | some _ => { r1 with refs := deleteRef r1.refs "ORIG_HEAD" false }
  | none => r1

/-- `rebase_abort()` (repository.py:891-904): the restore target is the
rebase state's `orig_head`, not the ORIG_HEAD ref. -/
def rebaseAbortOp (gc : Oid → GCommit) (gt : Oid → List (Path × Oid))
    (gb : Oid → String) (r : Repo) : Repo :=
  match r.rebase with
  | none => r
  | some st => rebaseCleanup (resetOp gc gt gb st.origHead false false true r)

/-- The refs-part of `reset` never depends on the mode. -/
theorem resetOp_refs (gc : Oid → GCommit) (gt : Oid → List (Path × Oid))
    (gb : Oid → String) (oid : Oid) (soft mixed hard : Bool) (r : Repo) :
    (resetOp gc gt gb oid soft mixed hard r).refs =
      updateRef r.refs "HEAD" false oid true := by
  cases mixed <;> cases hard <;> rfl

/-- C10.  `reset` never detaches HEAD: when HEAD is symbolic to
`refs/heads/<b>` (the branch ref holding an oid, or not yet existing),
`reset(oid)` in any of the three modes writes `oid` through to the branch
ref, leaves the HEAD file unchanged (still symbolic to the same branch) and
HEAD resolves to `oid`. -/
theorem reset_keeps_head_symbolic (gc : Oid → GCommit)
    (gt : Oid → List (Path × Oid)) (gb : Oid → String) (r : Repo)
    (b br oid v : String) (hb : br = "refs/heads/" ++ b)
    (h1 : alook r.refs "HEAD" = some (.symref br))
    (h2 : alook r.refs br = some (.direct v) ∨ alook r.refs br = none)
    (hfr : br ≠ "HEAD") (soft mixed hard : Bool) :
    alook (resetOp gc gt gb oid soft mixed hard r).refs "HEAD" =
      some (.symref br) ∧
    alook (resetOp gc gt gb oid soft mixed hard r).refs br =
      some (.direct oid) ∧
    resolveRef (resetOp gc gt gb oid soft mixed hard r).refs "HEAD" =
      some oid := by
  have hup : updateRef r.refs "HEAD" false oid true =
      aset r.refs br (.direct oid) := by
    rcases h2 with h2 | h2
    · simpa using updateRef_sym_direct r.refs "HEAD" br v false oid h1 h2
    · simpa using updateRef_sym_missing r.refs "HEAD" br false oid h1 h2
  rw [resetOp_refs, hup]
  have hh : alook (aset r.refs br (.direct oid)) "HEAD" = some (.symref br) := by
    rw [alook_aset_ne _ _ _ _ (Ne.symm hfr)]
    exact h1
  have hbr : alook (aset r.refs br (.direct oid)) br = some (.direct oid) :=
    alook_aset_self _ _ _
  refine ⟨hh, hbr, ?_⟩
  simp [resolveRef, getRefV_sym_direct _ "HEAD" br oid hh hbr]

/-- A repository on branch `master` at commit `aaa`, used as the C10
witness. -/
def rC10 : Repo :=
  ⟨[("HEAD", .symref "refs/heads/master"),
    ("refs/heads/master", .direct "aaa")], none, [], [], []⟩

/-- C10, witness: `reset --hard bbb` on `rC10` moves the branch and keeps
HEAD symbolic. -/
theorem reset_keeps_head_symbolic_witness :
    alook (resetOp (fun _ => ⟨"t0", []⟩) (fun _ => []) (fun _ => "") "bbb"
        false false true rC10).refs "HEAD" =
      some (.symref "refs/heads/master") ∧
    alook (resetOp (fun _ => ⟨"t0", []⟩) (fun _ => []) (fun _ => "") "bbb"
        false false true rC10).refs "refs/heads/master" =
      some (.direct "bbb") ∧
    resolveRef (resetOp (fun _ => ⟨"t0", []⟩) (fun _ => []) (fun _ => "") "bbb"
        false false true rC10).refs "HEAD" = some "bbb" :=
  reset_keeps_head_symbolic (fun _ => ⟨"t0", []⟩) (fun _ => []) (fun _ => "")
    rC10 "master" "refs/heads/master" "bbb" "aaa" rfl (by decide)
    (Or.inl (by decide)) (by decide) false false true

/-! C8: the spec says any of the three transient tokens blocks starting any
of the three operations.  `cherry_pick` (repository.py:531-547) and `rebase`
(repository.py:736-752) do check all three, but `merge`
(repository.py:239-245) checks only MERGE_HEAD: a merge started during a
cherry-pick (CHERRY_PICK_HEAD present, MERGE_HEAD absent) proceeds. -/

/-- Two commits: `o1` (tree `t-o`) on top of `h0` (tree `t-h`). -/
def gcC8 : Oid → GCommit := fun o =>
  if o = "o1" then ⟨"t-o", ["h0"]⟩ else ⟨"t-h", []⟩

def gtC8 : Oid → List (Path × Oid) := fun t =>
  if t = "t-o" then [("f.txt", "b-f")] else []

/-- A repository in the middle of a cherry-pick: CHERRY_PICK_HEAD exists,
MERGE_HEAD does not. -/
def rC8 : Repo :=
  ⟨[("HEAD", .direct "h0"), ("CHERRY_PICK_HEAD", .direct "x1"),
    ("ORIG_HEAD", .direct "h0")], none, [], [], []⟩

/-- C8, the failing input evaluated.  With a cherry-pick in progress (token
present) `merge(o1)` is not refused: it runs to completion as a fast-forward
and moves HEAD to `o1`, leaving the repository changed. -/
theorem merge_ignores_cherry_pick_token :
    (getRefV rC8.refs "CHERRY_PICK_HEAD" true).value = some "x1" ∧
    (getRefV rC8.refs "MERGE_HEAD" true).value = none ∧
    (mergeOp gcC8 gtC8 (fun _ => "blob-bytes") (fun _ _ _ => ("", false))
        (fun _ => "") 10 "o1" rC8).1 = .fastForward ∧
    (mergeOp gcC8 gtC8 (fun _ => "blob-bytes") (fun _ _ _ => ("", false))
        (fun _ => "") 10 "o1" rC8).2.refs =
      [("HEAD", .direct "o1"), ("CHERRY_PICK_HEAD", .direct "x1"),
       ("ORIG_HEAD", .direct "h0")] ∧
    (mergeOp gcC8 gtC8 (fun _ => "blob-bytes") (fun _ _ _ => ("", false))
        (fun _ => "") 10 "o1" rC8).2 ≠ rC8 := by
  refine ⟨rfl, rfl, rfl, rfl, by decide⟩

/-! C9: the index path invariant.  `add` on a direct file path
(repository.py:490-493) calls `add_file` without the `is_ignored` check that
`add_directory` applies, so `add('.gitforge/index')` — the store's own index
file, which exists — puts a path whose first component is the reserved store
directory name into the index.  (Likewise `add('../f')`: `os.path.relpath`
keeps the leading `..`, which `get_tree`'s own `assert name not in ('..',
'.')` later rejects.)  `os.path.relpath` is the identity on the
already-relative normalized paths used here. -/

/-- Python's `str.split('/')`, by structural recursion over the characters
(so that the kernel can evaluate it on literals). -/
def splitSlashAux : List Char → List Char → List String
  | [], acc => [String.mk acc.reverse]
  | c :: rest, acc =>
      if c = '/' then String.mk acc.reverse :: splitSlashAux rest []
      else splitSlashAux rest (c :: acc)

def splitSlash (p : Path) : List String := splitSlashAux p.toList []

/-- `is_ignored(path)` (repository.py:502-503). -/
def is_ignored (p : Path) : Bool := (splitSlash p).contains ".gitforge"

/-- `add(filenames)` (repository.py:471-500) acting on the index.
`fsFiles` are the regular files on disk (path ↦ contents), `fsDirs` the
directories; `hashB` is `hash_object` on the file bytes. -/
def addOp (hashB : String → Oid) (fsFiles : List (Path × String))
    (fsDirs : List Path) (names : List Path)
    (index : List (Path × IEntry)) : List (Path × IEntry) :=
  names.foldl (fun idx name =>
    if (alook fsFiles name).isSome then
      -- add_file: the direct-file branch performs no is_ignored check
      aset idx name (.clear (hashB ((alook fsFiles name).getD "")))
    else if fsDirs.contains name then
      -- add_directory: walk the files below, skipping ignored paths
      (fsFiles.filter (fun pf =>
        pf.1.startsWith (name ++ "/") && !(is_ignored pf.1))).foldl
        (fun idx2 pf => aset idx2 pf.1 (.clear (hashB pf.2))) idx
    else
      adel idx name) index

/-- The §3 invariant: no index path has a component `.`, `..` or the
reserved store directory name. -/
def pathComponentsOk (p : Path) : Bool :=
  (splitSlash p).all (fun c =>
    !(c = ".") && !(c = "..") && !(c = ".gitforge"))

def indexPathsOk (index : List (Path × IEntry)) : Bool :=
  index.all (fun pe => pathComponentsOk pe.1)

/-- The files on disk for the C9 failing input: the store's index file and a
normal file. -/
def fsC9 : List (Path × String) :=
  [(".gitforge/index", "indexjson"), ("a.txt", "hello")]

/-- C9, the failing input evaluated: `add [".gitforge/index"]` on an empty
index stores the reserved path as a clear entry, violating the invariant
(`is_ignored` itself classifies the path as reserved, but the direct-file
branch of `add` never consults it). -/
theorem add_reserved_path_enters_index :
    is_ignored ".gitforge/index" = true ∧
    addOp (fun _ => "b-1") fsC9 [] [".gitforge/index"] [] =
      [(".gitforge/index", IEntry.clear "b-1")] ∧
    indexPathsOk (addOp (fun _ => "b-1") fsC9 [] [".gitforge/index"] []) =
      false := by
  refine ⟨by decide, rfl, by decide⟩

/-- C5.  `commit` fails with the conflict-in-index error (carrying exactly
the conflicted paths) if and only if the index holds at least one conflict
entry; and when it fails for that reason the returned state is the input
state — object store, HEAD, branch refs, MERGE_HEAD/ORIG_HEAD, index and
working tree are all untouched (the guard runs before any write, and the
exception aborts the `with get_index()` block before its write-back). -/
theorem commit_conflict_guard (hashT hashC : String → Oid)
    (message authorLine committerLine : String) (amp : Bool) (r : Repo) :
    ((commitOp hashT hashC message authorLine committerLine amp r).1 =
        .error (conflictedFiles r.index) ↔ hasConflictsI r.index = true) ∧
    (hasConflictsI r.index = true →
      (commitOp hashT hashC message authorLine committerLine amp r).2 = r) := by
  by_cases h : hasConflictsI r.index = true
  · simp [commitOp, h]
  · simp [commitOp, h]

/-- A repository whose index holds one unresolved conflict. -/
def rC5 : Repo :=
  ⟨[("HEAD", .direct "h0")], none,
   [("f.txt", .conflict "content_conflict" "m1" (some "b") (some "h") (some "o"))],
   [("f.txt", "<<<")], []⟩

/-- C5, witness: committing on `rC5` is refused with the conflicted file
list and changes nothing. -/
theorem commit_conflict_guard_witness :
    (commitOp (fun _ => "t") (fun _ => "c") "msg" "author\n" "committer\n"
        true rC5).1 = .error (conflictedFiles rC5.index) ∧
    (commitOp (fun _ => "t") (fun _ => "c") "msg" "author\n" "committer\n"
        true rC5).2 = rC5 := by
  have h := commit_conflict_guard (fun _ => "t") (fun _ => "c") "msg"
    "author\n" "committer\n" true rC5
  exact ⟨h.1.mpr (by decide), h.2 (by decide)⟩

/-- C4.  For every `merge(other)` invoked with no merge in progress when the
merge base of `other` and HEAD is HEAD itself: the result is a fast-forward;
afterwards the index and the working tree hold exactly `other`'s tree, HEAD
resolves to `other`, no MERGE_HEAD is created, and — first conjunct — if
HEAD was symbolic to a branch it stays symbolic to that branch, whose ref
now holds `other` (write-through); second conjunct — a detached HEAD is
moved directly. -/
theorem merge_fast_forward (gc : Oid → GCommit) (gt : Oid → List (Path × Oid))
    (gb : Oid → String)
    (mb : Option Oid → Option Oid → Option Oid → String × Bool)
    (hashB : String → Oid) (fuel : Nat) (other : Oid) (r : Repo)
    (br v w : String) :
    ((alook r.refs "MERGE_HEAD" = none) →
     (alook r.refs "HEAD" = some (.symref br)) →
     (alook r.refs br = some (.direct v)) →
     br ≠ "HEAD" → br ≠ "MERGE_HEAD" →
     get_merge_base (fun o => (gc o).parents) fuel other v = some (some v) →
      (mergeOp gc gt gb mb hashB fuel other r).1 = .fastForward ∧
      (mergeOp gc gt gb mb hashB fuel other r).2.index =
        (gt (gc other).tree).map (fun po => (po.1, IEntry.clear po.2)) ∧
      (mergeOp gc gt gb mb hashB fuel other r).2.working =
        checkoutIndex gb
          ((gt (gc other).tree).map (fun po => (po.1, IEntry.clear po.2))) ∧
      alook (mergeOp gc gt gb mb hashB fuel other r).2.refs "HEAD" =
        some (.symref br) ∧
      alook (mergeOp gc gt gb mb hashB fuel other r).2.refs br =
        some (.direct other) ∧
      resolveRef (mergeOp gc gt gb mb hashB fuel other r).2.refs "HEAD" =
        some other ∧
      alook (mergeOp gc gt gb mb hashB fuel other r).2.refs "MERGE_HEAD" =
        none) ∧
    ((alook r.refs "MERGE_HEAD" = none) →
     (alook r.refs "HEAD" = some (.direct w)) →
     get_merge_base (fun o => (gc o).parents) fuel other w = some (some w) →
      (mergeOp gc gt gb mb hashB fuel other r).1 = .fastForward ∧
      (mergeOp gc gt gb mb hashB fuel other r).2.index =
        (gt (gc other).tree).map (fun po => (po.1, IEntry.clear po.2)) ∧
      (mergeOp gc gt gb mb hashB fuel other r).2.working =
        checkoutIndex gb
          ((gt (gc other).tree).map (fun po => (po.1, IEntry.clear po.2))) ∧
      alook (mergeOp gc gt gb mb hashB fuel other r).2.refs "HEAD" =
        some (.direct other) ∧
      resolveRef (mergeOp gc gt gb mb hashB fuel other r).2.refs "HEAD" =
        some other ∧
      alook (mergeOp gc gt gb mb hashB fuel other r).2.refs "MERGE_HEAD" =
        none) := by
  constructor
  · intro hmh h1 h2 hfr hfr2 hmb
    have hm : (getRefV r.refs "MERGE_HEAD" true).value = none := by
      rw [getRefV_missing _ _ _ hmh]
    have hh : (getRefV r.refs "HEAD" true).value = some v := by
      rw [getRefV_sym_direct _ _ _ _ h1 h2]
    have hup : updateRef r.refs "HEAD" false other true =
        aset r.refs br (.direct other) := by
      simpa using updateRef_sym_direct r.refs "HEAD" br v false other h1 h2
    have hres : mergeOp gc gt gb mb hashB fuel other r =
        (.fastForward,
          ⟨aset r.refs br (.direct other), r.rebase,
           (gt (gc other).tree).map (fun po => (po.1, IEntry.clear po.2)),
           checkoutIndex gb
             ((gt (gc other).tree).map (fun po => (po.1, IEntry.clear po.2))),
           r.store⟩) := by
      simp [mergeOp, hm, hh, hmb, readTree, hup]
    rw [hres]
    have hh' : alook (aset r.refs br (.direct other)) "HEAD" =
        some (.symref br) := by
      rw [alook_aset_ne _ _ _ _ (Ne.symm hfr)]; exact h1
    have hb' : alook (aset r.refs br (.direct other)) br =
        some (.direct other) := alook_aset_self _ _ _
    refine ⟨rfl, rfl, rfl, hh', hb', ?_, ?_⟩
    · simp [resolveRef, getRefV_sym_direct _ "HEAD" br other hh' hb']
    · rw [alook_aset_ne _ _ _ _ (Ne.symm hfr2)]; exact hmh
  · intro hmh h1 hmb
    have hm : (getRefV r.refs "MERGE_HEAD" true).value = none := by
      rw [getRefV_missing _ _ _ hmh]
    have hh : (getRefV r.refs "HEAD" true).value = some w := by
      rw [getRefV_direct _ _ _ _ h1]
    have hup : updateRef r.refs "HEAD" false other true =
        aset r.refs "HEAD" (.direct other) := by
      simpa using updateRef_direct r.refs "HEAD" w false other true h1
    have hres : mergeOp gc gt gb mb hashB fuel other r =
        (.fastForward,
          ⟨aset r.refs "HEAD" (.direct other), r.rebase,
           (gt (gc other).tree).map (fun po => (po.1, IEntry.clear po.2)),
           checkoutIndex gb
             ((gt (gc other).tree).map (fun po => (po.1, IEntry.clear po.2))),
           r.store⟩) := by
      simp [mergeOp, hm, hh, hmb, readTree, hup]
    rw [hres]
    have hh' : alook (aset r.refs "HEAD" (.direct other)) "HEAD" =
        some (.direct other) := alook_aset_self _ _ _
    refine ⟨rfl, rfl, rfl, hh', ?_, ?_⟩
    · simp [resolveRef, getRefV_direct _ "HEAD" other true hh']
    · rw [alook_aset_ne _ _ _ _ (by decide : ("MERGE_HEAD" : String) ≠ "HEAD")]
      exact hmh

/-- The C4 witness repository: on branch `master` at `h0`, no merge in
progress; `o1` is a child of `h0` (`gcC8`/`gtC8` above). -/
def rC4 : Repo :=
  ⟨[("HEAD", .symref "refs/heads/master"),
    ("refs/heads/master", .direct "h0")], none, [], [], []⟩

/-- C4, witness: fast-forwarding `master` to `o1`. -/
theorem merge_fast_forward_witness :
    (mergeOp gcC8 gtC8 (fun _ => "blob-bytes") (fun _ _ _ => ("", false))
        (fun _ => "") 10 "o1" rC4).1 = .fastForward ∧
    (mergeOp gcC8 gtC8 (fun _ => "blob-bytes") (fun _ _ _ => ("", false))
        (fun _ => "") 10 "o1" rC4).2.index =
      (gtC8 (gcC8 "o1").tree).map (fun po => (po.1, IEntry.clear po.2)) ∧
    (mergeOp gcC8 gtC8 (fun _ => "blob-bytes") (fun _ _ _ => ("", false))
        (fun _ => "") 10 "o1" rC4).2.working =
      checkoutIndex (fun _ => "blob-bytes")
        ((gtC8 (gcC8 "o1").tree).map (fun po => (po.1, IEntry.clear po.2))) ∧
    alook (mergeOp gcC8 gtC8 (fun _ => "blob-bytes") (fun _ _ _ => ("", false))
        (fun _ => "") 10 "o1" rC4).2.refs "HEAD" =
      some (.symref "refs/heads/master") ∧
    alook (mergeOp gcC8 gtC8 (fun _ => "blob-bytes") (fun _ _ _ => ("", false))
        (fun _ => "") 10 "o1" rC4).2.refs "refs/heads/master" =
      some (.direct "o1") ∧
    resolveRef (mergeOp gcC8 gtC8 (fun _ => "blob-bytes")
        (fun _ _ _ => ("", false)) (fun _ => "") 10 "o1" rC4).2.refs "HEAD" =
      some "o1" ∧
    alook (mergeOp gcC8 gtC8 (fun _ => "blob-bytes") (fun _ _ _ => ("", false))
        (fun _ => "") 10 "o1" rC4).2.refs "MERGE_HEAD" = none :=
  (merge_fast_forward gcC8 gtC8 (fun _ => "blob-bytes")
      (fun _ _ _ => ("", false)) (fun _ => "") 10 "o1" rC4
      "refs/heads/master" "h0" "").1
    rfl rfl rfl (by decide) (by decide) (by decide)

/-- The shapes HEAD takes while an operation is in progress: detached
(a direct oid) or symbolic to a branch ref holding an oid; the branch name
is none of the well-known transient file names. -/
def HeadW (refs : List (String × RefContent)) (tgt : String) : Prop :=
  (tgt = "HEAD" ∧ ∃ w, alook refs "HEAD" = some (.direct w)) ∨
  (alook refs "HEAD" = some (.symref tgt) ∧
    (∃ v, alook refs tgt = some (.direct v)) ∧
    tgt ≠ "HEAD" ∧ tgt ≠ "MERGE_HEAD" ∧ tgt ≠ "ORIG_HEAD" ∧
    tgt ≠ "CHERRY_PICK_HEAD")

theorem updateHEAD_eq (refs : List (String × RefContent)) (tgt o : String)
    (h : HeadW refs tgt) :
    updateRef refs "HEAD" false o true = aset refs tgt (.direct o) := by
  rcases h with ⟨rfl, w, hw⟩ | ⟨h1, ⟨v, h2⟩, -⟩
  · simpa using updateRef_direct refs "HEAD" w false o true hw
  · simpa using updateRef_sym_direct refs "HEAD" tgt v false o h1 h2

theorem resolveRef_cases (refs2 : List (String × RefContent)) (tgt o : String)
    (h : alook refs2 "HEAD" = some (.direct o) ∨
      (alook refs2 "HEAD" = some (.symref tgt) ∧
       alook refs2 tgt = some (.direct o))) :
    resolveRef refs2 "HEAD" = some o := by
  rcases h with h | ⟨h1, h2⟩
  · simp [resolveRef, getRefV_direct _ _ _ _ h]
  · simp [resolveRef, getRefV_sym_direct _ _ _ _ h1 h2]

/-- The post-state every `--abort` must reach: HEAD resolves to the saved
oid, index and working tree hold that commit's tree, and every transient
token (MERGE_HEAD, ORIG_HEAD, CHERRY_PICK_HEAD, the rebase state) is
absent. -/
def AbortPost (gc : Oid → GCommit) (gt : Oid → List (Path × Oid))
    (gb : Oid → String) (r' : Repo) (o : Oid) : Prop :=
  resolveRef r'.refs "HEAD" = some o ∧
  r'.index = (gt (gc o).tree).map (fun po => (po.1, IEntry.clear po.2)) ∧
  r'.working = checkoutIndex gb
    ((gt (gc o).tree).map (fun po => (po.1, IEntry.clear po.2))) ∧
  alook r'.refs "MERGE_HEAD" = none ∧
  alook r'.refs "ORIG_HEAD" = none ∧
  alook r'.refs "CHERRY_PICK_HEAD" = none ∧
  r'.rebase = none

/-- C6.  Each of `merge_abort`, `cherry_pick_abort` and `rebase_abort`,
invoked while (only) the corresponding operation is in progress, restores
HEAD to the oid saved at operation start (ORIG_HEAD, respectively the rebase
state's `orig_head`), resets index and working tree to that commit's tree,
and removes every transient token. -/
theorem abort_restores_state (gc : Oid → GCommit)
    (gt : Oid → List (Path × Oid)) (gb : Oid → String) :
    (∀ (r : Repo) (tgt m o : String),
      keysNodup r.refs → HeadW r.refs tgt →
      alook r.refs "MERGE_HEAD" = some (.direct m) →
      alook r.refs "ORIG_HEAD" = some (.direct o) →
      alook r.refs "CHERRY_PICK_HEAD" = none →
      r.rebase = none →
      AbortPost gc gt gb (mergeAbortOp gc gt gb r) o) ∧
    (∀ (r : Repo) (tgt cp o : String),
      keysNodup r.refs → HeadW r.refs tgt →
      alook r.refs "MERGE_HEAD" = none →
      alook r.refs "ORIG_HEAD" = some (.direct o) →
      alook r.refs "CHERRY_PICK_HEAD" = some (.direct cp) →
      r.rebase = none →
      AbortPost gc gt gb (cherryPickAbortOp gc gt gb r) o) ∧
    (∀ (r : Repo) (tgt w : String) (st : RebaseSt),
      keysNodup r.refs → HeadW r.refs tgt →
      alook r.refs "MERGE_HEAD" = none →
      alook r.refs "ORIG_HEAD" = some (.direct w) →
      alook r.refs "CHERRY_PICK_HEAD" = none →
      r.rebase = some st →
      AbortPost gc gt gb (rebaseAbortOp gc gt gb r) st.origHead) := by
  refine ⟨?_, ?_, ?_⟩
  · -- merge_abort
    intro r tgt m o hnd hw hmh hoh hcp hrb
    have hmv : (getRefV r.refs "MERGE_HEAD" true).value = some m := by
      rw [getRefV_direct _ _ _ _ hmh]
    have hov : (getRefV r.refs "ORIG_HEAD" true).value = some o := by
      rw [getRefV_direct _ _ _ _ hoh]
    have hup := updateHEAD_eq r.refs tgt o hw
    have htgtH : tgt = "HEAD" ∨ (tgt ≠ "MERGE_HEAD" ∧ tgt ≠ "ORIG_HEAD" ∧
        tgt ≠ "CHERRY_PICK_HEAD") := by
      rcases hw with ⟨rfl, -⟩ | ⟨-, -, -, h4, h5, h6⟩
      · exact Or.inl rfl
      · exact Or.inr ⟨h4, h5, h6⟩
    have hres : mergeAbortOp gc gt gb r =
        ⟨adel (adel (aset r.refs tgt (.direct o)) "MERGE_HEAD") "ORIG_HEAD",
         r.rebase,
         (gt (gc o).tree).map (fun po => (po.1, IEntry.clear po.2)),
         checkoutIndex gb
           ((gt (gc o).tree).map (fun po => (po.1, IEntry.clear po.2))),
         r.store⟩ := by
      simp [mergeAbortOp, hmv, hov, resetOp, readTree, hup, deleteRef_false]
    rw [hres]
    have hndA : keysNodup (aset r.refs tgt (.direct o)) :=
      keysNodup_aset _ _ _ hnd
    have hndB : keysNodup (adel (aset r.refs tgt (.direct o)) "MERGE_HEAD") :=
      keysNodup_adel _ _ hndA
    have hMH : alook (adel (adel (aset r.refs tgt (.direct o)) "MERGE_HEAD")
        "ORIG_HEAD") "MERGE_HEAD" = none := by
      rw [alook_adel_ne _ _ _ (by decide : ("MERGE_HEAD" : String) ≠ "ORIG_HEAD")]
      exact alook_adel_self _ _ hndA
    have hOH : alook (adel (adel (aset r.refs tgt (.direct o)) "MERGE_HEAD")
        "ORIG_HEAD") "ORIG_HEAD" = none := alook_adel_self _ _ hndB
    have hCP : alook (adel (adel (aset r.refs tgt (.direct o)) "MERGE_HEAD")
        "ORIG_HEAD") "CHERRY_PICK_HEAD" = none := by
      rw [alook_adel_ne _ _ _
          (by decide : ("CHERRY_PICK_HEAD" : String) ≠ "ORIG_HEAD"),
        alook_adel_ne _ _ _
          (by decide : ("CHERRY_PICK_HEAD" : String) ≠ "MERGE_HEAD")]
      rcases htgtH with rfl | ⟨-, -, h6⟩
      · rw [alook_aset_ne _ _ _ _
            (by decide : ("CHERRY_PICK_HEAD" : String) ≠ "HEAD")]
        exact hcp
      · rw [alook_aset_ne _ _ _ _ (Ne.symm h6)]
        exact hcp
    have hHEADres : resolveRef (adel (adel (aset r.refs tgt (.direct o))
        "MERGE_HEAD") "ORIG_HEAD") "HEAD" = some o := by
      rcases hw with ⟨rfl, w, hw1⟩ | ⟨h1, ⟨v, h2⟩, h3, h4, h5, h6⟩
      · refine resolveRef_cases _ "HEAD" o (Or.inl ?_)
        rw [alook_adel_ne _ _ _ (by decide : ("HEAD" : String) ≠ "ORIG_HEAD"),
          alook_adel_ne _ _ _ (by decide : ("HEAD" : String) ≠ "MERGE_HEAD")]
        exact alook_aset_self _ _ _
      · refine resolveRef_cases _ tgt o (Or.inr ⟨?_, ?_⟩)
        · rw [alook_adel_ne _ _ _ (by decide : ("HEAD" : String) ≠ "ORIG_HEAD"),
            alook_adel_ne _ _ _ (by decide : ("HEAD" : String) ≠ "MERGE_HEAD"),
            alook_aset_ne _ _ _ _ (Ne.symm h3)]
          exact h1
        · rw [alook_adel_ne _ _ _ h5, alook_adel_ne _ _ _ h4]
          exact alook_aset_self _ _ _
    exact ⟨hHEADres, rfl, rfl, hMH, hOH, hCP, hrb⟩
  · -- cherry_pick_abort
    intro r tgt cp o hnd hw hmh hoh hcp hrb
    have hcpv : (getRefV r.refs "CHERRY_PICK_HEAD" true).value = some cp := by
      rw [getRefV_direct _ _ _ _ hcp]
    have hov : (getRefV r.refs "ORIG_HEAD" true).value = some o := by
      rw [getRefV_direct _ _ _ _ hoh]
    have hup := updateHEAD_eq r.refs tgt o hw
    have htgt : tgt = "HEAD" ∨ (tgt ≠ "MERGE_HEAD" ∧ tgt ≠ "ORIG_HEAD" ∧
        tgt ≠ "CHERRY_PICK_HEAD") := by
      rcases hw with ⟨rfl, -⟩ | ⟨-, -, -, h4, h5, h6⟩
      · exact Or.inl rfl
      · exact Or.inr ⟨h4, h5, h6⟩
    have hcpne : ("CHERRY_PICK_HEAD" : String) ≠ tgt := by
      rcases htgt with rfl | ⟨-, -, h6⟩
      · decide
      · exact Ne.symm h6
    have hohne : ("ORIG_HEAD" : String) ≠ tgt := by
      rcases htgt with rfl | ⟨-, h5, -⟩
      · decide
      · exact Ne.symm h5
    have hAcp : alook (aset r.refs tgt (.direct o)) "CHERRY_PICK_HEAD" =
        some (.direct cp) := by
      rw [alook_aset_ne _ _ _ _ hcpne]; exact hcp
    have h1v : (getRefV (aset r.refs tgt (.direct o)) "CHERRY_PICK_HEAD"
        true).value = some cp := by
      rw [getRefV_direct _ _ _ _ hAcp]
    have hBoh : alook (adel (aset r.refs tgt (.direct o)) "CHERRY_PICK_HEAD")
        "ORIG_HEAD" = some (.direct o) := by
      rw [alook_adel_ne _ _ _
          (by decide : ("ORIG_HEAD" : String) ≠ "CHERRY_PICK_HEAD"),
        alook_aset_ne _ _ _ _ hohne]
      exact hoh
    have h2v : (getRefV (adel (aset r.refs tgt (.direct o))
        "CHERRY_PICK_HEAD") "ORIG_HEAD" true).value = some o := by
      rw [getRefV_direct _ _ _ _ hBoh]
    have hres : cherryPickAbortOp gc gt gb r =
        ⟨adel (adel (aset r.refs tgt (.direct o)) "CHERRY_PICK_HEAD")
          "ORIG_HEAD",
         r.rebase,
         (gt (gc o).tree).map (fun po => (po.1, IEntry.clear po.2)),
         checkoutIndex gb
           ((gt (gc o).tree).map (fun po => (po.1, IEntry.clear po.2))),
         r.store⟩ := by
      simp [cherryPickAbortOp, hcpv, hov, resetOp, readTree, hup,
        cherryPickCleanup, h1v, h2v, deleteRef_false]
    rw [hres]
    have hndA : keysNodup (aset r.refs tgt (.direct o)) :=
      keysNodup_aset _ _ _ hnd
    have hndB : keysNodup (adel (aset r.refs tgt (.direct o))
        "CHERRY_PICK_HEAD") := keysNodup_adel _ _ hndA
    have hMH : alook (adel (adel (aset r.refs tgt (.direct o))
        "CHERRY_PICK_HEAD") "ORIG_HEAD") "MERGE_HEAD" = none := by
      rw [alook_adel_ne _ _ _ (by decide : ("MERGE_HEAD" : String) ≠ "ORIG_HEAD"),
        alook_adel_ne _ _ _
          (by decide : ("MERGE_HEAD" : String) ≠ "CHERRY_PICK_HEAD")]
      rcases htgt with rfl | ⟨h4, -, -⟩
      · rw [alook_aset_ne _ _ _ _ (by decide : ("MERGE_HEAD" : String) ≠ "HEAD")]
        exact hmh
      · rw [alook_aset_ne _ _ _ _ (Ne.symm h4)]
        exact hmh
    have hOH : alook (adel (adel (aset r.refs tgt (.direct o))
        "CHERRY_PICK_HEAD") "ORIG_HEAD") "ORIG_HEAD" = none :=
      alook_adel_self _ _ hndB
    have hCP : alook (adel (adel (aset r.refs tgt (.direct o))
        "CHERRY_PICK_HEAD") "ORIG_HEAD") "CHERRY_PICK_HEAD" = none := by
      rw [alook_adel_ne _ _ _
          (by decide : ("CHERRY_PICK_HEAD" : String) ≠ "ORIG_HEAD")]
      exact alook_adel_self _ _ hndA
    have hHEADres : resolveRef (adel (adel (aset r.refs tgt (.direct o))
        "CHERRY_PICK_HEAD") "ORIG_HEAD") "HEAD" = some o := by
      rcases hw with ⟨rfl, w, hw1⟩ | ⟨h1, ⟨v, h2⟩, h3, h4, h5, h6⟩
      · refine resolveRef_cases _ "HEAD" o (Or.inl ?_)
        rw [alook_adel_ne _ _ _ (by decide : ("HEAD" : String) ≠ "ORIG_HEAD"),
          alook_adel_ne _ _ _
            (by decide : ("HEAD" : String) ≠ "CHERRY_PICK_HEAD")]
        exact alook_aset_self _ _ _
      · refine resolveRef_cases _ tgt o (Or.inr ⟨?_, ?_⟩)
        · rw [alook_adel_ne _ _ _ (by decide : ("HEAD" : String) ≠ "ORIG_HEAD"),
            alook_adel_ne _ _ _
              (by decide : ("HEAD" : String) ≠ "CHERRY_PICK_HEAD"),
            alook_aset_ne _ _ _ _ (Ne.symm h3)]
          exact h1
        · rw [alook_adel_ne _ _ _ h5, alook_adel_ne _ _ _ h6]
          exact alook_aset_self _ _ _
    exact ⟨hHEADres, rfl, rfl, hMH, hOH, hCP, hrb⟩
  · -- rebase_abort
    intro r tgt w st hnd hw hmh hoh hcp hrb
    have hup := updateHEAD_eq r.refs tgt st.origHead hw
    have htgt : tgt = "HEAD" ∨ (tgt ≠ "MERGE_HEAD" ∧ tgt ≠ "ORIG_HEAD" ∧
        tgt ≠ "CHERRY_PICK_HEAD") := by
      rcases hw with ⟨rfl, -⟩ | ⟨-, -, -, h4, h5, h6⟩
      · exact Or.inl rfl
      · exact Or.inr ⟨h4, h5, h6⟩
    have hohne : ("ORIG_HEAD" : String) ≠ tgt := by
      rcases htgt with rfl | ⟨-, h5, -⟩
      · decide
      · exact Ne.symm h5
    have hAoh : alook (aset r.refs tgt (.direct st.origHead)) "ORIG_HEAD" =
        some (.direct w) := by
      rw [alook_aset_ne _ _ _ _ hohne]; exact hoh
    have h1v : (getRefV (aset r.refs tgt (.direct st.origHead)) "ORIG_HEAD"
        true).value = some w := by
      rw [getRefV_direct _ _ _ _ hAoh]
    have hres : rebaseAbortOp gc gt gb r =
        ⟨adel (aset r.refs tgt (.direct st.origHead)) "ORIG_HEAD",
         none,
         (gt (gc st.origHead).tree).map (fun po => (po.1, IEntry.clear po.2)),
         checkoutIndex gb ((gt (gc st.origHead).tree).map
           (fun po => (po.1, IEntry.clear po.2))),
         r.store⟩ := by
      simp [rebaseAbortOp, hrb, resetOp, readTree, hup, rebaseCleanup, h1v,
        deleteRef_false]
    rw [hres]
    have hndA : keysNodup (aset r.refs tgt (.direct st.origHead)) :=
      keysNodup_aset _ _ _ hnd
    have hMH : alook (adel (aset r.refs tgt (.direct st.origHead))
        "ORIG_HEAD") "MERGE_HEAD" = none := by
      rw [alook_adel_ne _ _ _ (by decide : ("MERGE_HEAD" : String) ≠ "ORIG_HEAD")]
      rcases htgt with rfl | ⟨h4, -, -⟩
      · rw [alook_aset_ne _ _ _ _ (by decide : ("MERGE_HEAD" : String) ≠ "HEAD")]
        exact hmh
      · rw [alook_aset_ne _ _ _ _ (Ne.symm h4)]
        exact hmh
    have hOH : alook (adel (aset r.refs tgt (.direct st.origHead))
        "ORIG_HEAD") "ORIG_HEAD" = none := alook_adel_self _ _ hndA
    have hCP : alook (adel (aset r.refs tgt (.direct st.origHead))
        "ORIG_HEAD") "CHERRY_PICK_HEAD" = none := by
      rw [alook_adel_ne _ _ _
          (by decide : ("CHERRY_PICK_HEAD" : String) ≠ "ORIG_HEAD")]
      rcases htgt with rfl | ⟨-, -, h6⟩
      · rw [alook_aset_ne _ _ _ _
            (by decide : ("CHERRY_PICK_HEAD" : String) ≠ "HEAD")]
        exact hcp
      · rw [alook_aset_ne _ _ _ _ (Ne.symm h6)]
        exact hcp
    have hHEADres : resolveRef (adel (aset r.refs tgt (.direct st.origHead))
        "ORIG_HEAD") "HEAD" = some st.origHead := by
      rcases hw with ⟨rfl, w', hw1⟩ | ⟨h1, ⟨v, h2⟩, h3, h4, h5, h6⟩
      · refine resolveRef_cases _ "HEAD" st.origHead (Or.inl ?_)
        rw [alook_adel_ne _ _ _ (by decide : ("HEAD" : String) ≠ "ORIG_HEAD")]
        exact alook_aset_self _ _ _
      · refine resolveRef_cases _ tgt st.origHead (Or.inr ⟨?_, ?_⟩)
        · rw [alook_adel_ne _ _ _ (by decide : ("HEAD" : String) ≠ "ORIG_HEAD"),
            alook_aset_ne _ _ _ _ (Ne.symm h3)]
          exact h1
        · rw [alook_adel_ne _ _ _ h5]
          exact alook_aset_self _ _ _
    exact ⟨hHEADres, rfl, rfl, hMH, hOH, hCP, rfl⟩

/-- A repository with a merge in progress on branch `master`: MERGE_HEAD and
ORIG_HEAD present, one conflicted index entry. -/
def rC6 : Repo :=
  ⟨[("HEAD", .symref "refs/heads/master"),
    ("refs/heads/master", .direct "h1"),
    ("MERGE_HEAD", .direct "m1"),
    ("ORIG_HEAD", .direct "h0")], none,
   [("f.txt", .conflict "content_conflict" "mm" (some "b") (some "h") (some "o"))],
   [("f.txt", "<<<")], []⟩

/-- C6, witness: aborting the merge in `rC6` restores HEAD to `h0`, resets
index and working tree to `h0`'s tree and removes all transient tokens. -/
theorem abort_restores_state_witness :
    AbortPost (fun _ => ⟨"t0", []⟩) (fun _ => [("a.txt", "b-a")])
      (fun _ => "A")
      (mergeAbortOp (fun _ => ⟨"t0", []⟩) (fun _ => [("a.txt", "b-a")])
        (fun _ => "A") rC6) "h0" :=
  (abort_restores_state (fun _ => ⟨"t0", []⟩) (fun _ => [("a.txt", "b-a")])
      (fun _ => "A")).1
    rC6 "refs/heads/master" "m1" "h0" (by unfold keysNodup; decide)
    (Or.inr ⟨rfl, ⟨"h1", rfl⟩, by decide, by decide, by decide, by decide⟩)
    rfl rfl rfl rfl

end Gitforge
